import Mathlib

/-!
# BenchPress masking / active-sampling core: a shallow embedding

This file embeds, in Lean, the algorithmic core of the BenchPress (CLgen)
repository and proves the frozen claims about it:

* `deeplearning/clgen/features/feature_sampler.py`:
  `EuclideanSampler.calculate_distance` and `EuclideanSampler.topK_candidates`;
* `deeplearning/clgen/active_models/committee/active_committee.py`: `entropy`;
* `deeplearning/clgen/models/data_generators.py`:
  `_holeSequence` (hole masking with its offset table),
  `updateSampleBatch` and the `sample_gen` stopping condition;
* `deeplearning/clgen/util/distributions.py`: the sampling distributions,
  abstracted as explicit sample streams.

Python-level behaviour (negative indices, clamping slices, `round`
half-to-even, `assert` statements, `IndexError`) is modelled explicitly;
fallible code lives in `Except String`.
-/

namespace BenchPress

/-! ## Python list / arithmetic semantics helpers -/

/-- Python `l[i]` for a list: nonnegative indices are positions from the
front, negative indices count from the back, anything else raises
`IndexError`. -/
def pyGet {α : Type} (l : List α) (i : Int) : Except String α :=
  if 0 ≤ i then
    match l.get? i.toNat with
    | some v => .ok v
    | none => .error "IndexError"
  else if -(l.length : Int) ≤ i then
    match l.get? ((l.length : Int) + i).toNat with
    | some v => .ok v
    | none => .error "IndexError"
  else .error "IndexError"

/-- Python `l[:i]`: clamped, negative `i` counts from the back. -/
def pySliceTo {α : Type} (l : List α) (i : Int) : List α :=
  if 0 ≤ i then l.take i.toNat else l.take ((l.length : Int) + i).toNat

/-- Python `l[i:]`: clamped, negative `i` counts from the back. -/
def pySliceFrom {α : Type} (l : List α) (i : Int) : List α :=
  if 0 ≤ i then l.drop i.toNat else l.drop ((l.length : Int) + i).toNat

/-- Python 3 `round` on an exact rational: round half to even. -/
def pyRound (q : ℚ) : Int :=
  let f : Int := ⌊q⌋
  let r : ℚ := q - (f : ℚ)
  if r < 1/2 then f
  else if 1/2 < r then f + 1
  else if f % 2 = 0 then f else f + 1

theorem pyGet_nonneg {α : Type} (l : List α) (i : Int) (h0 : 0 ≤ i)
    (hlt : i.toNat < l.length) : pyGet l i = .ok (l.get ⟨i.toNat, hlt⟩) := by
  simp only [pyGet, if_pos h0]
  rw [List.get?_eq_get hlt]

theorem pyGet_getD {α : Type} (l : List α) (i : Int) (d : α) (h0 : 0 ≤ i)
    (hlt : i.toNat < l.length) : pyGet l i = .ok (l.getD i.toNat d) := by
  rw [pyGet_nonneg l i h0 hlt, List.getD_eq_getElem l d hlt]
  rfl

theorem pyGet_oob {α : Type} (l : List α) (i : Int) (h0 : 0 ≤ i)
    (hge : l.length ≤ i.toNat) : pyGet l i = .error "IndexError" := by
  simp only [pyGet, if_pos h0]
  rw [List.get?_eq_none.2 hge]

theorem pySliceTo_nonneg {α : Type} (l : List α) (i : Int) (h0 : 0 ≤ i) :
    pySliceTo l i = l.take i.toNat := by
  simp [pySliceTo, h0]

theorem pySliceFrom_nonneg {α : Type} (l : List α) (i : Int) (h0 : 0 ≤ i) :
    pySliceFrom l i = l.drop i.toNat := by
  simp [pySliceFrom, h0]

/-! ## `features/feature_sampler.py`: `EuclideanSampler`

A feature vector is a Python dict from feature name to float; here an
association list with `List.lookup` playing `dict[key]` (a missing key
raises `KeyError`).  Floats are modelled as exact rationals, with the final
`math.sqrt` landing in `ℝ`. -/

abbrev FeatureMap := List (String × ℚ)

/-- Python `d[key]` on a feature dict. -/
def dictGet (m : FeatureMap) (k : String) : Except String ℚ :=
  match m.lookup k with
  | some v => .ok v
  | none => .error ("KeyError: " ++ k)

/-- Python `d.keys()`. -/
def dictKeys (m : FeatureMap) : List String := m.map Prod.fst

/-- The accumulation loop of `EuclideanSampler.calculate_distance`:
`for key in target.keys(): i = infeat[key]; t = target[key];
d += abs(t**2 - i**2)`. -/
def distanceLoop (target infeat : FeatureMap) : List String → ℚ → Except String ℚ
  | [], d => .ok d
  | key :: rest, d => do
    let i ← dictGet infeat key
    let t ← dictGet target key
    distanceLoop target infeat rest (d + |t ^ 2 - i ^ 2|)

/-- The sum accumulated by `EuclideanSampler.calculate_distance` over the
keys of the target benchmark's feature vector, starting from `d = 0`. -/
def distanceSum (target infeat : FeatureMap) : Except String ℚ :=
  distanceLoop target infeat (dictKeys target) 0

/-- `EuclideanSampler.calculate_distance(infeat)` against the target
benchmark's feature vector: `math.sqrt(d)` of the accumulated sum. -/
noncomputable def calculate_distance (infeat target : FeatureMap) : Except String ℝ :=
  (distanceSum target infeat).map (fun d => Real.sqrt (d : ℝ))

/-- An `ActiveSample` as consumed by `topK_candidates`: only its
precomputed `score` matters for ranking; `tag` stands for the rest of the
payload. -/
structure ActiveSample where
  score : ℚ
  tag : Nat
deriving DecidableEq, Repr

/-- `sorted(candidates, key = lambda x: x.score)`. -/
def sortedByScore (candidates : List ActiveSample) : List ActiveSample :=
  List.insertionSort (fun a b => a.score ≤ b.score) candidates

/-- `EuclideanSampler.topK_candidates(candidates, K)` =
`sorted(candidates, key = lambda x: x.score)[:K]` with Python slice
semantics for `K` (so `K = -1` drops the last element). -/
def topK_candidates (candidates : List ActiveSample) (K : Int) : List ActiveSample :=
  pySliceTo (sortedByScore candidates) K

instance {ε α : Type} [DecidableEq ε] [DecidableEq α] : DecidableEq (Except ε α) := fun x y =>
  match x, y with
  | .ok a, .ok b => decidable_of_iff (a = b) (by simp)
  | .error e, .error f => decidable_of_iff (e = f) (by simp)
  | .ok _, .error _ => isFalse (by simp)
  | .error _, .ok _ => isFalse (by simp)

@[simp] theorem exc_ok_bind {ε α β : Type} (a : α) (f : α → Except ε β) :
    (Except.ok a >>= f) = f a := rfl

@[simp] theorem exc_err_bind {ε α β : Type} (e : ε) (f : α → Except ε β) :
    ((Except.error e : Except ε α) >>= f) = .error e := rfl

@[simp] theorem exc_pure_eq_ok {ε α : Type} (a : α) :
    (pure a : Except ε α) = .ok a := rfl

theorem lookup_isSome_of_mem_keys (m : FeatureMap) (k : String)
    (h : k ∈ dictKeys m) : (m.lookup k).isSome := by
  induction m with
  | nil => simp [dictKeys] at h
  | cons p rest ih =>
    simp only [dictKeys, List.map_cons, List.mem_cons] at h
    rcases h with h | h
    · subst h
      simp [List.lookup]
    · by_cases hk : k = p.1
      · subst hk
        simp [List.lookup]
      · have hbe : (k == p.1) = false := by simpa using hk
        simp only [List.lookup, hbe]
        exact ih h

theorem distanceSum_aux (target infeat : FeatureMap) (keys : List String)
    (h : ∀ k ∈ keys, (infeat.lookup k).isSome ∧ (target.lookup k).isSome)
    (acc : ℚ) :
    distanceLoop target infeat keys acc =
    .ok (acc + (keys.map
      (fun k => |((target.lookup k).getD 0) ^ 2 - ((infeat.lookup k).getD 0) ^ 2|)).sum) := by
  induction keys generalizing acc with
  | nil => simp [distanceLoop]
  | cons k ks ih =>
    obtain ⟨hi, ht⟩ := h k (List.mem_cons_self k ks)
    obtain ⟨iv, hiv⟩ := Option.isSome_iff_exists.1 hi
    obtain ⟨tv, htv⟩ := Option.isSome_iff_exists.1 ht
    have hgi : dictGet infeat k = .ok iv := by simp [dictGet, hiv]
    have hgt : dictGet target k = .ok tv := by simp [dictGet, htv]
    simp only [distanceLoop, hgi, hgt, exc_ok_bind]
    rw [ih (fun k hk => h k (List.mem_cons_of_mem _ hk)) (acc + |tv ^ 2 - iv ^ 2|)]
    simp [hiv, htv]
    ring

/-- C8 helper: `distanceSum` succeeds with the spec's sum once every target
key is present in the candidate. -/
theorem distanceSum_ok (target infeat : FeatureMap)
    (h : ∀ k ∈ dictKeys target, (infeat.lookup k).isSome) :
    distanceSum target infeat =
      .ok ((dictKeys target).map
        (fun k => |((target.lookup k).getD 0) ^ 2 - ((infeat.lookup k).getD 0) ^ 2|)).sum := by
  have := distanceSum_aux target infeat (dictKeys target)
    (fun k hk => ⟨h k hk, lookup_isSome_of_mem_keys target k hk⟩) 0
  simpa [distanceSum] using this

/-- C8: `calculate_distance` computes
`sqrt(Σ_{key ∈ keys(target)} |target[key]^2 - infeat[key]^2|)` — the
absolute difference of squares, not standard Euclidean distance — and in
particular the distance of any feature vector to itself is 0. -/
theorem feature_distance_spec (infeat target : FeatureMap)
    (h : ∀ k ∈ dictKeys target, (infeat.lookup k).isSome) :
    calculate_distance infeat target =
      .ok (Real.sqrt ((((dictKeys target).map
        (fun k => |((target.lookup k).getD 0) ^ 2 - ((infeat.lookup k).getD 0) ^ 2|)).sum : ℚ))) ∧
    calculate_distance infeat infeat = .ok 0 := by
  constructor
  · rw [calculate_distance, distanceSum_ok target infeat h]
    rfl
  · rw [calculate_distance,
      distanceSum_ok infeat infeat (fun k hk => lookup_isSome_of_mem_keys infeat k hk)]
    have hz : ((dictKeys infeat).map
        (fun k => |((infeat.lookup k).getD 0) ^ 2 - ((infeat.lookup k).getD 0) ^ 2|)).sum = 0 := by
      apply List.sum_eq_zero
      intro x hx
      obtain ⟨k, _, hk⟩ := List.mem_map.1 hx
      rw [← hk]
      simp
    rw [hz]
    simp [Except.map]

theorem feature_distance_spec_witness :
    (∀ k ∈ dictKeys [("a", (2:ℚ))], (([("a", (3:ℚ))] : FeatureMap).lookup k).isSome) ∧
    calculate_distance [("a", 3)] [("a", 2)] = .ok (Real.sqrt ((5:ℚ) : ℝ)) := by
  refine ⟨by decide, ?_⟩
  have h := (feature_distance_spec [("a", 3)] [("a", 2)] (by decide)).1
  rw [h]
  have : ((dictKeys [("a", (2:ℚ))]).map
      (fun k => |((([("a", (2:ℚ))] : FeatureMap).lookup k).getD 0) ^ 2 -
        ((([("a", (3:ℚ))] : FeatureMap).lookup k).getD 0) ^ 2|)).sum = (5:ℚ) := by
    simp [dictKeys, List.lookup]
    norm_num
  rw [this]

theorem distance_error_aux (target infeat : FeatureMap) (keys : List String)
    (ht : ∀ k ∈ keys, (target.lookup k).isSome) (acc : ℚ) :
    (∃ e, distanceLoop target infeat keys acc = .error e) ↔
      ∃ k ∈ keys, infeat.lookup k = none := by
  induction keys generalizing acc with
  | nil => simp [distanceLoop]
  | cons k ks ih =>
    obtain ⟨tv, htv⟩ := Option.isSome_iff_exists.1 (ht k (List.mem_cons_self k ks))
    cases hiv : infeat.lookup k with
    | none =>
      have hgi : dictGet infeat k = .error ("KeyError: " ++ k) := by simp [dictGet, hiv]
      simp only [distanceLoop, hgi, exc_err_bind]
      constructor
      · intro _
        exact ⟨k, List.mem_cons_self k ks, hiv⟩
      · intro _
        exact ⟨"KeyError: " ++ k, rfl⟩
    | some iv =>
      have hgi : dictGet infeat k = .ok iv := by simp [dictGet, hiv]
      have hgt : dictGet target k = .ok tv := by simp [dictGet, htv]
      simp only [distanceLoop, hgi, hgt, exc_ok_bind]
      rw [ih (fun k hk => ht k (List.mem_cons_of_mem _ hk))]
      constructor
      · rintro ⟨k', hk', hnone⟩
        exact ⟨k', List.mem_cons_of_mem _ hk', hnone⟩
      · rintro ⟨k', hk', hnone⟩
        rcases List.mem_cons.1 hk' with rfl | hmem
        · rw [hiv] at hnone
          exact absurd hnone (by simp)
        · exact ⟨k', hmem, hnone⟩

/-- C10: `calculate_distance` raises a `KeyError` exactly when the
candidate's feature map lacks some key of the target's feature vector; no
default value is ever substituted. -/
theorem missing_key_error (infeat target : FeatureMap) :
    (∃ e, calculate_distance infeat target = .error e) ↔
      ∃ k ∈ dictKeys target, infeat.lookup k = none := by
  have haux := distance_error_aux target infeat (dictKeys target)
    (fun k hk => lookup_isSome_of_mem_keys target k hk) 0
  rw [← haux]
  unfold calculate_distance distanceSum
  constructor
  · rintro ⟨e, he⟩
    cases hds : distanceLoop target infeat (dictKeys target) 0 with
    | error e' => exact ⟨e', rfl⟩
    | ok v =>
      rw [hds] at he
      simp [Except.map] at he
  · rintro ⟨e, he⟩
    rw [he]
    exact ⟨e, rfl⟩

/-- C4 counterexample: `topK(candidates, -1)` does **not** return all
candidates; Python's `[: -1]` slice drops the final (highest-score)
element. -/
theorem topK_minus_one_cex :
    topK_candidates [⟨2, 0⟩, ⟨1, 1⟩] (-1) = [⟨1, 1⟩] ∧
    topK_candidates [⟨2, 0⟩, ⟨1, 1⟩] (-1) ≠ sortedByScore [⟨2, 0⟩, ⟨1, 1⟩] := by
  decide

/-- C4 (amended): `topK(candidates, -1)` is the ascending sort of the
candidates with its **last element dropped** (so its length is
`len(candidates) - 1` and it is still sorted ascending by score), while
`topK(candidates, 0) = []` and `topK([], K) = []` for every `K`. -/
theorem topK_boundary (candidates : List ActiveSample) (K : Int) :
    topK_candidates candidates (-1) = (sortedByScore candidates).dropLast ∧
    (topK_candidates candidates (-1)).length = candidates.length - 1 ∧
    List.Sorted (fun a b => a.score ≤ b.score) (topK_candidates candidates (-1)) ∧
    topK_candidates candidates 0 = [] ∧
    topK_candidates [] K = [] := by
  haveI : IsTotal ActiveSample (fun a b => a.score ≤ b.score) :=
    ⟨fun a b => le_total a.score b.score⟩
  haveI : IsTrans ActiveSample (fun a b => a.score ≤ b.score) :=
    ⟨fun _ _ _ hab hbc => le_trans hab hbc⟩
  have hlen : (sortedByScore candidates).length = candidates.length :=
    (List.perm_insertionSort _ candidates).length_eq
  have htake : topK_candidates candidates (-1) =
      (sortedByScore candidates).take ((sortedByScore candidates).length - 1) := by
    unfold topK_candidates pySliceTo
    rw [if_neg (by norm_num)]
    congr 1
    omega
  refine ⟨?_, ?_, ?_, ?_, ?_⟩
  · rw [htake, ← List.dropLast_eq_take]
  · rw [htake, List.length_take, hlen]
    omega
  · rw [htake]
    exact List.Pairwise.sublist (List.take_sublist _ _)
      (List.sorted_insertionSort _ candidates)
  · unfold topK_candidates pySliceTo
    norm_num
  · unfold topK_candidates pySliceTo sortedByScore
    simp

/-! ## `active_models/committee/active_committee.py`: `entropy`

`np.unique(labels, return_counts=True)` yields the sorted distinct labels
with their multiplicities; `probs = counts / len(labels)`;
`n_classes = np.count_nonzero(probs)`; then Shannon entropy with
`math.log(p, base)` and `base = math.e` when not overridden. -/

/-- The sorted distinct labels (`np.unique`). -/
def uniqueVals (labels : List Nat) : List Nat :=
  List.insertionSort (· ≤ ·) labels.dedup

/-- The multiplicity of each distinct label (`return_counts=True`). -/
def uniqueCounts (labels : List Nat) : List Nat :=
  (uniqueVals labels).map (fun v => labels.count v)

/-- `probs = counts / len(labels)`. -/
def probs (labels : List Nat) : List ℚ :=
  (uniqueCounts labels).map (fun c : Nat => (c : ℚ) / (labels.length : ℚ))

/-- `n_classes = np.count_nonzero(probs)`. -/
def nClasses (labels : List Nat) : Nat :=
  ((probs labels).filter (fun p => p ≠ 0)).length

/-- `ActiveCommittee.entropy(labels, base)`: 0 when `len(labels) <= 1` or
at most one nonzero class, else `entropy -= p * math.log(p, base)` over the
empirical probabilities, with natural log by default. -/
noncomputable def entropy (labels : List Nat) (base : Option ℝ) : ℝ :=
  if labels.length ≤ 1 then 0
  else if nClasses labels ≤ 1 then 0
  else
    let b : ℝ := base.getD (Real.exp 1)
    (probs labels).foldl (fun (e : ℝ) (p : ℚ) => e - (p : ℝ) * (Real.log p / Real.log b)) 0

theorem entropy_foldl_aux (b : ℝ) (l : List ℚ) (acc : ℝ) :
    l.foldl (fun (e : ℝ) (p : ℚ) => e - (p : ℝ) * (Real.log p / Real.log b)) acc =
      acc - (l.map (fun p : ℚ => (p : ℝ) * (Real.log p / Real.log b))).sum := by
  induction l generalizing acc with
  | nil => simp
  | cons p ps ih =>
    simp only [List.foldl_cons, List.map_cons, List.sum_cons]
    rw [ih]
    ring

theorem probs_length (labels : List Nat) :
    (probs labels).length = labels.dedup.length := by
  unfold probs uniqueCounts uniqueVals
  simp only [List.length_map]
  exact (List.perm_insertionSort (fun x y : Nat => x ≤ y) labels.dedup).length_eq

theorem probs_pair (a b : Nat) (hab : a ≠ b) :
    probs [a, b] = [1/2, 1/2] := by
  have hd : ([a, b] : List Nat).dedup = [a, b] := by
    rw [List.dedup_cons_of_not_mem (by simp [hab]), List.dedup_cons_of_not_mem (by simp),
      List.dedup_nil]
  have hca : ([a, b] : List Nat).count a = 1 := by
    simp [List.count_cons, hab]
  have hcb : ([a, b] : List Nat).count b = 1 := by
    simp [List.count_cons, Ne.symm hab]
  unfold probs uniqueCounts uniqueVals
  rw [hd]
  by_cases hle : a ≤ b
  · have hs : List.insertionSort (fun x y : Nat => x ≤ y) [a, b] = [a, b] := by
      simp [List.insertionSort, List.orderedInsert, hle]
    rw [hs]
    simp [hca, hcb]
  · have hs : List.insertionSort (fun x y : Nat => x ≤ y) [a, b] = [b, a] := by
      simp [List.insertionSort, List.orderedInsert, hle]
    rw [hs]
    simp [hca, hcb]

/-- C9: the entropy contract: 0 for lists of length at most 1 and for
single-class lists; otherwise `-Σ p·log(p)` over the empirical
probabilities with the natural log as default base; in particular
`entropy [x] = 0`, `entropy [a,a,a] = 0` and `entropy [a,b] = log 2` for
`a ≠ b`. -/
theorem entropy_contract (labels : List Nat) (x a b : Nat) (hab : a ≠ b) :
    (labels.length ≤ 1 → entropy labels none = 0) ∧
    (labels.dedup.length ≤ 1 → entropy labels none = 0) ∧
    (1 < labels.length → 1 < nClasses labels →
      entropy labels none = -((probs labels).map (fun p : ℚ => (p : ℝ) * Real.log p)).sum) ∧
    entropy [x] none = 0 ∧
    entropy [a, a, a] none = 0 ∧
    entropy [a, b] none = Real.log 2 := by
  have hgen : ∀ ls : List Nat, 1 < ls.length → 1 < nClasses ls →
      entropy ls none = -((probs ls).map (fun p : ℚ => (p : ℝ) * Real.log p)).sum := by
    intro ls h1 h2
    rw [entropy, if_neg (by omega), if_neg (by omega)]
    simp only [Option.getD]
    rw [entropy_foldl_aux]
    rw [show ((probs ls).map fun p : ℚ => (p:ℝ) * (Real.log p / Real.log (Real.exp 1))) =
        (probs ls).map (fun p : ℚ => (p:ℝ) * Real.log p) from ?_]
    · ring
    · apply List.map_congr_left
      intro p _
      rw [Real.log_exp]
      ring
  have hsmall : ∀ ls : List Nat, ls.length ≤ 1 → entropy ls none = 0 := by
    intro ls h
    rw [entropy, if_pos h]
  have hone : ∀ ls : List Nat, ls.dedup.length ≤ 1 → entropy ls none = 0 := by
    intro ls h
    by_cases hlen : ls.length ≤ 1
    · exact hsmall ls hlen
    · have hnc : nClasses ls ≤ 1 := by
        have := List.length_filter_le (fun p => decide (p ≠ 0)) (probs ls)
        unfold nClasses
        rw [probs_length] at *
        omega
      rw [entropy, if_neg hlen, if_pos hnc]
  refine ⟨hsmall labels, hone labels, hgen labels, hsmall [x] (by simp), ?_, ?_⟩
  · apply hone
    have hd3 : ([a, a, a] : List Nat).dedup = [a] := by
      rw [List.dedup_cons_of_mem (by simp), List.dedup_cons_of_mem (by simp),
        List.dedup_cons_of_not_mem (by simp), List.dedup_nil]
    rw [hd3]
    simp
  · have hp := probs_pair a b hab
    have hnc : nClasses [a, b] = 2 := by
      unfold nClasses
      rw [hp]
      norm_num
    rw [hgen [a, b] (by simp) (by omega), hp]
    have h2 : (((1/2 : ℚ)) : ℝ) = (2:ℝ)⁻¹ := by norm_num
    simp only [List.map_cons, List.map_nil, List.sum_cons, List.sum_nil, h2]
    rw [Real.log_inv]
    ring

theorem entropy_contract_witness : ((0:Nat) ≠ (1:Nat)) ∧
    entropy [0, 1] none = Real.log 2 :=
  ⟨by decide, (entropy_contract [] 0 0 1 (by decide)).2.2.2.2.2⟩

/-! ## `models/data_generators.py`: `updateSampleBatch` and `sample_gen`

The inference-time feed update.  Token ids are `Nat`; the atomizer's
reserved ids are carried in `UpdCtx`.  `self.sampleIndices[batch_idx]` is a
list of per-target token lists; Python list indexing can raise
`IndexError`, modelled through `pyGet`. -/

structure UpdCtx where
  maskToken : Nat
  holeToken : Nat
  endholeToken : Nat
  padToken : Nat
  maxPositionEmbeddings : Nat
  sequenceLength : Nat
deriving DecidableEq, Repr

/-- The running state of one slot of `updateSampleBatch`'s outer loop:
the rebuilt `batch`, `mask_id_index`, `closed_hole_index`, that slot's
`sampleIndices`, and the `done` flag. -/
structure UpdState where
  batch : List Nat
  maskIdx : Nat
  closedHole : Nat
  indices : List (List Nat)
  done : Bool
deriving DecidableEq, Repr

/-- The `while sampleIndices[...][mask_id_index + closed_hole_index][-1] ==
endholeToken: closed_hole_index += 1` loop.  The fuel only bounds the
recursion; the loop always stops earlier at a non-`endhole` tail or via
`IndexError`, exactly as in Python. -/
def whileClosedHole (endhole : Nat) (indices : List (List Nat)) (maskIdx : Nat) :
    Nat → Nat → Except String Nat
  | 0, _ => .error "IndexError"
  | fuel + 1, c => do
    let lst ← pyGet indices ((maskIdx + c : Nat) : Int)
    let lastTok ← pyGet lst (-1)
    if lastTok = endhole then whileClosedHole endhole indices maskIdx fuel (c + 1)
    else .ok c

/-- One token of the inner loop of `updateSampleBatch`: a `mask` token is
replaced by the prediction; a `hole` token is replaced by the prediction
followed by a fresh `hole` (and `done = False`) unless the prediction is
`endhole`, in which case nothing is appended; other tokens are copied. -/
def updStep (ctx : UpdCtx) (preds : List Nat) (st : UpdState) (token : Nat) :
    Except String UpdState :=
  if token = ctx.maskToken then do
    let mt ← pyGet preds (st.maskIdx : Int)
    let l0 ← pyGet st.indices (st.maskIdx : Int)
    let c ← if 0 < l0.length then
        whileClosedHole ctx.endholeToken st.indices st.maskIdx (st.indices.length + 1) st.closedHole
      else pure st.closedHole
    let tgt ← pyGet st.indices ((st.maskIdx + c : Nat) : Int)
    let indices1 := st.indices.set (st.maskIdx + c) (tgt ++ [mt])
    .ok { st with
      indices := indices1
      maskIdx := st.maskIdx + 1
      closedHole := c
      batch := st.batch ++ [mt] }
  else if token = ctx.holeToken then do
    let mt ← pyGet preds (st.maskIdx : Int)
    let l0 ← pyGet st.indices (st.maskIdx : Int)
    let c ← if 0 < l0.length then
        whileClosedHole ctx.endholeToken st.indices st.maskIdx (st.indices.length + 1) st.closedHole
      else pure st.closedHole
    let tgt ← pyGet st.indices ((st.maskIdx + c : Nat) : Int)
    let indices1 := st.indices.set (st.maskIdx + c) (tgt ++ [mt])
    if mt ≠ ctx.endholeToken then
      .ok { st with
        indices := indices1
        maskIdx := st.maskIdx + 1
        closedHole := c
        batch := st.batch ++ [mt, ctx.holeToken]
        done := false }
    else
      .ok { st with
        indices := indices1
        maskIdx := st.maskIdx + 1
        closedHole := c }
  else
    .ok { st with batch := st.batch ++ [token] }

/-- The inner `for idx, token in enumerate(input_ids[batch_idx])` loop. -/
def updSlotLoop (ctx : UpdCtx) (preds : List Nat) :
    List Nat → UpdState → Except String UpdState
  | [], st => .ok st
  | token :: rest, st => do
    let st1 ← updStep ctx preds st token
    updSlotLoop ctx preds rest st1

/-- `_padToMaxPosition`: append `padToken`s up to `max_position_embeddings`
(no-op when the sequence is already longer). -/
def padToMaxPosition (ctx : UpdCtx) (l : List Nat) : List Nat :=
  l ++ List.replicate (ctx.maxPositionEmbeddings - l.length) ctx.padToken

/-- One slot of `updateSampleBatch`: run the inner loop from an empty
`batch` with `mask_id_index = closed_hole_index = 0`, then re-pad and crop
to the sampler's sequence length. -/
def updateSlot (ctx : UpdCtx) (tokens preds : List Nat) (indices : List (List Nat))
    (done : Bool) : Except String (List Nat × List (List Nat) × Bool) := do
  let st ← updSlotLoop ctx preds tokens ⟨[], 0, 0, indices, done⟩
  let batch1 := padToMaxPosition ctx st.batch
  .ok (batch1.take ctx.sequenceLength, st.indices, st.done)

/-- `updateSampleBatch(input_ids, masked_lm_ids)`: the whole batch.  The
`assert len(input_ids) == len(masked_lm_ids)` guard is the error case. -/
def updateSampleBatch (ctx : UpdCtx) (inputIds maskedLmIds : List (List Nat))
    (sampleIndices : List (List (List Nat))) :
    Except String (List (List Nat) × List (List (List Nat))) :=
  if inputIds.length = maskedLmIds.length then
    let rec go : List (List Nat) → Nat → List (List Nat) →
        List (List (List Nat)) → Bool →
        Except String (List (List Nat) × List (List (List Nat)))
      | [], _, acc, idxs, _ => .ok (acc, idxs)
      | tokens :: rest, bi, acc, idxs, done => do
        let preds ← pyGet maskedLmIds (bi : Int)
        let slotIdxs ← pyGet idxs (bi : Int)
        let (batch1, idxs1, done1) ← updateSlot ctx tokens preds slotIdxs done
        go rest (bi + 1) (acc ++ [batch1]) (idxs.set bi idxs1) done1
    go inputIds 0 [] sampleIndices true
  else .error "Inputs and predictions do not have the same batch size."

/-- The number of open targets of one buffer:
`len(np.where(np.in1d(sample, [maskToken, holeToken]))[0])`. -/
def countTargets (ctx : UpdCtx) (s : List Nat) : Nat :=
  (s.filter (fun t => t = ctx.maskToken || t = ctx.holeToken)).length

/-- `sample_gen` stops (returns instead of yielding) exactly when
`max_mask_len == 0`, i.e. the largest per-slot count of mask/hole tokens
over the batch is zero. -/
def sampleGenStops (ctx : UpdCtx) (batch : List (List Nat)) : Bool :=
  (batch.map (countTargets ctx)).foldr max 0 = 0

theorem countTargets_eq_zero (ctx : UpdCtx) (s : List Nat) :
    countTargets ctx s = 0 ↔ ∀ t ∈ s, t ≠ ctx.maskToken ∧ t ≠ ctx.holeToken := by
  unfold countTargets
  rw [List.length_eq_zero, List.filter_eq_nil_iff]
  constructor
  · intro h t ht
    have := h t ht
    simp only [Bool.or_eq_true, decide_eq_true_eq, not_or] at this
    exact this
  · intro h t ht
    obtain ⟨h1, h2⟩ := h t ht
    simp [h1, h2]

theorem sampleGenStops_iff (ctx : UpdCtx) (batch : List (List Nat)) :
    sampleGenStops ctx batch = true ↔
      ∀ s ∈ batch, ∀ t ∈ s, t ≠ ctx.maskToken ∧ t ≠ ctx.holeToken := by
  induction batch with
  | nil => simp [sampleGenStops]
  | cons s rest ih =>
    unfold sampleGenStops at *
    simp only [List.map_cons, List.foldr_cons, decide_eq_true_eq] at *
    rw [Nat.max_eq_zero_iff]
    constructor
    · rintro ⟨h1, h2⟩ s' hs'
      rcases List.mem_cons.1 hs' with rfl | hmem
      · exact (countTargets_eq_zero ctx s').1 h1
      · exact (ih.1 h2) s' hmem
    · intro h
      refine ⟨(countTargets_eq_zero ctx s).2 (h s (List.mem_cons_self s rest)), ?_⟩
      exact ih.2 (fun s' hs' => h s' (List.mem_cons_of_mem _ hs'))

/-- C3 counterexample: when the model predicts `end_hole` for a `hole`
token, `updateSampleBatch` does **not** replace the hole by the predicted
token — it deletes the hole and inserts nothing (the prediction `3` is
absent from the updated buffer, which is all padding). -/
theorem updateSampleBatch_endhole_cex :
    updateSlot ⟨1, 2, 3, 0, 4, 4⟩ [2] [3] [[]] true = .ok ([0, 0, 0, 0], [[3]], true) ∧
    (3 : Nat) ∉ [0, 0, 0, 0] := by
  decide

/-- C3 (amended): in the feed update, a `mask` token is replaced by its
prediction; a `hole` token whose prediction is not `end_hole` is replaced
by the prediction followed by a re-inserted `hole` (clearing `done`); a
`hole` token whose prediction **is** `end_hole` is deleted (nothing — not
the prediction — is inserted); other tokens are copied; and `sample_gen`
stops yielding exactly when no mask or hole token remains in any batch
member. -/
theorem updateSampleBatch_step_spec (ctx : UpdCtx) (preds : List Nat)
    (st : UpdState) (token mt : Nat) (st' : UpdState) :
    (token = ctx.maskToken → pyGet preds (st.maskIdx : Int) = .ok mt →
      updStep ctx preds st token = .ok st' →
      st'.batch = st.batch ++ [mt] ∧ st'.done = st.done) ∧
    (token = ctx.holeToken → token ≠ ctx.maskToken →
      pyGet preds (st.maskIdx : Int) = .ok mt → mt ≠ ctx.endholeToken →
      updStep ctx preds st token = .ok st' →
      st'.batch = st.batch ++ [mt, ctx.holeToken] ∧ st'.done = false) ∧
    (token = ctx.holeToken → token ≠ ctx.maskToken →
      pyGet preds (st.maskIdx : Int) = .ok mt → mt = ctx.endholeToken →
      updStep ctx preds st token = .ok st' →
      st'.batch = st.batch ∧ st'.done = st.done) ∧
    (token ≠ ctx.maskToken → token ≠ ctx.holeToken →
      updStep ctx preds st token = .ok { st with batch := st.batch ++ [token] }) ∧
    (∀ batch : List (List Nat), sampleGenStops ctx batch = true ↔
      ∀ s ∈ batch, ∀ t ∈ s, t ≠ ctx.maskToken ∧ t ≠ ctx.holeToken) := by
  refine ⟨?_, ?_, ?_, ?_, ?_⟩
  · intro htok hp hrun
    unfold updStep at hrun
    rw [if_pos htok, hp] at hrun
    simp only [exc_ok_bind] at hrun
    cases hl0 : pyGet st.indices (st.maskIdx : Int) with
    | error e => rw [hl0] at hrun; simp at hrun
    | ok l0 =>
      rw [hl0] at hrun
      simp only [exc_ok_bind] at hrun
      by_cases hcond : 0 < l0.length
      · rw [if_pos hcond] at hrun
        cases hwc : whileClosedHole ctx.endholeToken st.indices st.maskIdx
            (st.indices.length + 1) st.closedHole with
        | error e => rw [hwc] at hrun; simp at hrun
        | ok c =>
          rw [hwc] at hrun
          simp only [exc_ok_bind] at hrun
          cases htgt : pyGet st.indices ((st.maskIdx + c : Nat) : Int) with
          | error e => rw [htgt] at hrun; simp at hrun
          | ok tgt =>
            rw [htgt] at hrun
            simp only [exc_ok_bind, Except.ok.injEq] at hrun
            rw [← hrun]
            exact ⟨rfl, rfl⟩
      · rw [if_neg hcond] at hrun
        simp only [exc_pure_eq_ok, exc_ok_bind] at hrun
        cases htgt : pyGet st.indices ((st.maskIdx + st.closedHole : Nat) : Int) with
        | error e => rw [htgt] at hrun; simp at hrun
        | ok tgt =>
          rw [htgt] at hrun
          simp only [exc_ok_bind, Except.ok.injEq] at hrun
          rw [← hrun]
          exact ⟨rfl, rfl⟩
  · intro htok hne hp hmt hrun
    unfold updStep at hrun
    rw [if_neg (htok ▸ hne), if_pos htok, hp] at hrun
    simp only [exc_ok_bind] at hrun
    cases hl0 : pyGet st.indices (st.maskIdx : Int) with
    | error e => rw [hl0] at hrun; simp at hrun
    | ok l0 =>
      rw [hl0] at hrun
      simp only [exc_ok_bind] at hrun
      by_cases hcond : 0 < l0.length
      · rw [if_pos hcond] at hrun
        cases hwc : whileClosedHole ctx.endholeToken st.indices st.maskIdx
            (st.indices.length + 1) st.closedHole with
        | error e => rw [hwc] at hrun; simp at hrun
        | ok c =>
          rw [hwc] at hrun
          simp only [exc_ok_bind] at hrun
          cases htgt : pyGet st.indices ((st.maskIdx + c : Nat) : Int) with
          | error e => rw [htgt] at hrun; simp at hrun
          | ok tgt =>
            rw [htgt] at hrun
            simp only [exc_ok_bind, if_pos hmt, Except.ok.injEq] at hrun
            rw [← hrun]
            exact ⟨rfl, rfl⟩
      · rw [if_neg hcond] at hrun
        simp only [exc_pure_eq_ok, exc_ok_bind] at hrun
        cases htgt : pyGet st.indices ((st.maskIdx + st.closedHole : Nat) : Int) with
        | error e => rw [htgt] at hrun; simp at hrun
        | ok tgt =>
          rw [htgt] at hrun
          simp only [exc_ok_bind, if_pos hmt, Except.ok.injEq] at hrun
          rw [← hrun]
          exact ⟨rfl, rfl⟩
  · intro htok hne hp hmt hrun
    unfold updStep at hrun
    rw [if_neg (htok ▸ hne), if_pos htok, hp] at hrun
    simp only [exc_ok_bind] at hrun
    cases hl0 : pyGet st.indices (st.maskIdx : Int) with
    | error e => rw [hl0] at hrun; simp at hrun
    | ok l0 =>
      rw [hl0] at hrun
      simp only [exc_ok_bind] at hrun
      by_cases hcond : 0 < l0.length
      · rw [if_pos hcond] at hrun
        cases hwc : whileClosedHole ctx.endholeToken st.indices st.maskIdx
            (st.indices.length + 1) st.closedHole with
        | error e => rw [hwc] at hrun; simp at hrun
        | ok c =>
          rw [hwc] at hrun
          simp only [exc_ok_bind] at hrun
          cases htgt : pyGet st.indices ((st.maskIdx + c : Nat) : Int) with
          | error e => rw [htgt] at hrun; simp at hrun
          | ok tgt =>
            rw [htgt] at hrun
            simp only [exc_ok_bind] at hrun
            rw [if_neg (show ¬ mt ≠ ctx.endholeToken from fun hx => hx hmt)] at hrun
            simp only [Except.ok.injEq] at hrun
            rw [← hrun]
            exact ⟨rfl, rfl⟩
      · rw [if_neg hcond] at hrun
        simp only [exc_pure_eq_ok, exc_ok_bind] at hrun
        cases htgt : pyGet st.indices ((st.maskIdx + st.closedHole : Nat) : Int) with
        | error e => rw [htgt] at hrun; simp at hrun
        | ok tgt =>
          rw [htgt] at hrun
          simp only [exc_ok_bind] at hrun
          rw [if_neg (show ¬ mt ≠ ctx.endholeToken from fun hx => hx hmt)] at hrun
          simp only [Except.ok.injEq] at hrun
          rw [← hrun]
          exact ⟨rfl, rfl⟩
  · intro hm hh
    unfold updStep
    rw [if_neg hm, if_neg hh]
  · exact fun batch => sampleGenStops_iff ctx batch

theorem updateSampleBatch_step_spec_witness :
    (⟨[7], 1, 0, [[9, 7]], true⟩ : UpdState).batch = ([] : List Nat) ++ [7] ∧
    (⟨[7], 1, 0, [[9, 7]], true⟩ : UpdState).done = (⟨[], 0, 0, [[9]], true⟩ : UpdState).done :=
  (updateSampleBatch_step_spec ⟨1, 2, 3, 0, 4, 4⟩ [7] ⟨[], 0, 0, [[9]], true⟩ 1 7
    ⟨[7], 1, 0, [[9, 7]], true⟩).1 rfl (by decide) (by decide)

/-! ## `models/data_generators.py`: `_holeSequence`

The hole-insertion masking.  The shuffled `candidate_indexes` (produced at
line 806–807 by `np.arange(actual_length)` + `self.rngen.shuffle`) is an
explicit argument, constrained where needed to be a permutation of
`range(actual_length)`; the hole-length distribution is an explicit sample
stream `samples : Nat → Nat` (both `UniformDistribution.sample` and
`NormalDistribution.sample` return integers in `[0, sample_length]`),
consumed at the state's `rngIdx`.  Python `assert` failures and
`IndexError`s are `.error` results; note that the source's two tuple-shaped
asserts are no-ops in Python, but still *evaluate* their indexing
expressions, which is modelled by the corresponding `pyGet` reads. -/

/-- The `MaskedLmInstance` tuples `(pos_index, token_id, hole_length)`
collected in `masked_lms`.  `pos_index` starts as the original position
and is later offset-adjusted (so it is an `Int`); `hole_length` is the
sampled-then-clamped length. -/
structure MaskedLmInstance where
  pos_index : Int
  token_id : Nat
  hole_length : Int
deriving DecidableEq, Repr

/-- The mutable state of `_holeSequence`'s main loop. -/
structure HoleState where
  input_ids : List Nat
  offset_idxs : List Int
  visited : List Nat
  total_predictions : Int
  masked_lms : List MaskedLmInstance
  sample_counter : List (Int × Nat)
  rngIdx : Nat
deriving DecidableEq, Repr

/-- The atomizer ids and options consumed by `_holeSequence`, plus the
input sequence. -/
structure HoleCtx where
  seq : List Nat
  holeToken : Nat
  padToken : Nat
  endholeToken : Nat
  maxPredictions : Nat
  trainingMaxPredictions : Nat
  maskedLmProb : ℚ
deriving DecidableEq, Repr

/-- `Distribution.register`: bump the frequency table entry (insertion
order preserved, as for a Python dict). -/
def registerSample (counter : List (Int × Nat)) (v : Int) : List (Int × Nat) :=
  if (counter.lookup v).isSome then
    counter.map (fun p => if p.1 = v then (p.1, p.2 + 1) else p)
  else counter ++ [(v, 1)]

/-- The conflict scan
`for i in range(hole_length): if input_ids[input_id_idx + i] == hole:
hole_length = i; break` — returns the index of the first hole token, if
any, among the first `fuel` offsets starting at `i`. -/
def holeConflictScan (ids : List Nat) (h : Nat) (a : Int) :
    Nat → Nat → Except String (Option Nat)
  | 0, _ => .ok none
  | fuel + 1, i => do
    let t ← pyGet ids (a + i)
    if t = h then .ok (some i) else holeConflictScan ids h a fuel (i + 1)

/-- The in-loop sanity re-check over all of `masked_lms`:
`test_index = lm.pos_index + offset_idxs[lm.pos_index];
if input_ids[test_index] != hole: assert False`. -/
def recheckMaskedLms (ids : List Nat) (h : Nat) (offs : List Int) :
    List MaskedLmInstance → Except String Unit
  | [] => .ok ()
  | lm :: rest => do
    let o ← pyGet offs lm.pos_index
    let t ← pyGet ids (lm.pos_index + o)
    if t = h then recheckMaskedLms ids h offs rest
    else .error "AssertionError: masked_lms re-check"

/-- `offset_idxs[start:] += c`. -/
def addToSuffix (offs : List Int) (start : Nat) (c : Int) : List Int :=
  offs.take start ++ (offs.drop start).map (· + c)

/-- `visited_indices.update(range(pos, pos + hl))`. -/
def visitRange (visited : List Nat) (pos : Nat) (hl : Int) : List Nat :=
  visited ++ (List.range hl.toNat).map (pos + ·)

/-- The reassignment of `hole_length` by the conflict scan: the scan's
first-hole index when a conflict was found, else the clamped draw. -/
def holeLengthAfterScan (scan : Option Nat) (hl0 : Int) : Int :=
  match scan with
  | some i => (i : Int)
  | none => hl0

theorem holeLengthAfterScan_some (i : Nat) (hl0 : Int) :
    holeLengthAfterScan (some i) hl0 = (i : Int) := rfl

theorem holeLengthAfterScan_none (hl0 : Int) :
    holeLengthAfterScan none hl0 = hl0 := rfl

/-- The body of `for pos_index in candidate_indexes` in `_holeSequence`,
in source order: bounds assert; offset lookup; break on
`total_predictions >= holes_to_predict`; skip visited; skip
`input_id_idx > len(seq)`; the (tuple-)assert's read of
`input_ids[input_id_idx]`; draw and clamp the hole length; conflict scan;
`register`; target token; splice; record the `MaskedLmInstance`; offset
update; prediction count; visited update; `masked_lms` re-check. -/
def holeLoop (ctx : HoleCtx) (samples : Nat → Nat) (holesToPredict : Int) :
    List Nat → HoleState → Except String HoleState
  | [], st => .ok st
  | pos :: rest, st =>
    if pos < ctx.seq.length then do
      let off ← pyGet st.offset_idxs (pos : Int)
      let idx : Int := (pos : Int) + off
      if holesToPredict ≤ st.total_predictions then .ok st
      else if pos ∈ st.visited then holeLoop ctx samples holesToPredict rest st
      else if (ctx.seq.length : Int) < idx then holeLoop ctx samples holesToPredict rest st
      else do
        let _ ← pyGet st.input_ids idx
        let s : Nat := samples st.rngIdx
        let hl0 : Int := min (s : Int) ((st.input_ids.length : Int) - idx)
        let scan ← holeConflictScan st.input_ids ctx.holeToken idx hl0.toNat 0
        let hl : Int := holeLengthAfterScan scan hl0
        let counter1 := registerSample st.sample_counter hl
        let target ← if 0 < hl then pyGet st.input_ids idx else pure ctx.endholeToken
        let ids1 := pySliceTo st.input_ids idx ++ [ctx.holeToken] ++
          pySliceFrom st.input_ids (idx + hl)
        let lms1 := st.masked_lms ++ [⟨(pos : Int), target, hl⟩]
        let offs1 := addToSuffix st.offset_idxs (pos + 1) (1 - hl)
        let total1 := st.total_predictions + max 1 hl
        let vis1 := visitRange st.visited pos hl
        let st1 : HoleState := ⟨ids1, offs1, vis1, total1, lms1, counter1, st.rngIdx + 1⟩
        let _ ← recheckMaskedLms ids1 ctx.holeToken offs1 lms1
        holeLoop ctx samples holesToPredict rest st1
    else .error "AssertionError: Candidate index is out of bounds"

/-- The post-loop pass
`for lm in masked_lms: lm.pos_index += offset_idxs[lm.pos_index];
assert input_ids[lm.pos_index] == hole`. -/
def updateLmOffsets (ids : List Nat) (h : Nat) (offs : List Int) :
    List MaskedLmInstance → Except String (List MaskedLmInstance)
  | [] => .ok []
  | lm :: rest => do
    let o ← pyGet offs lm.pos_index
    let np : Int := lm.pos_index + o
    let t ← pyGet ids np
    if t = h then do
      let rest1 ← updateLmOffsets ids h offs rest
      .ok (⟨np, lm.token_id, lm.hole_length⟩ :: rest1)
    else .error "AssertionError: lm does not point to a hole"

/-- The `MaskSequence` named tuple returned by `_holeSequence` (weights as
exact rationals; `seen_in_training` and `next_sentence_label` as ints). -/
structure MaskSequenceR where
  seen_in_training : Nat
  original_input : List Nat
  input_ids : List Nat
  input_mask : List Nat
  masked_lm_positions : List Int
  masked_lm_ids : List Nat
  masked_lm_weights : List ℚ
  masked_lm_lengths : List Int
  next_sentence_label : Nat
deriving DecidableEq, Repr

/-- `actual_length`: index of the first `padToken`, or the full length if
there is none. -/
def actualLength (ctx : HoleCtx) : Nat :=
  if ctx.padToken ∈ ctx.seq then ctx.seq.findIdx (· = ctx.padToken) else ctx.seq.length

/-- `holes_to_predict = min(max_predictions, max(1,
int(round(actual_length * masked_lm_prob))))`. -/
def holesToPredictOf (ctx : HoleCtx) : Int :=
  min (ctx.maxPredictions : Int) (max 1 (pyRound ((actualLength ctx : ℚ) * ctx.maskedLmProb)))

/-- The initial loop state: `input_ids = list(np.copy(seq))`, zero offsets,
nothing visited, no masks, empty frequency table. -/
def initHoleState (ctx : HoleCtx) : HoleState :=
  ⟨ctx.seq, List.replicate ctx.seq.length 0, [], 0, [], [], 0⟩

/-- Everything of `_holeSequence` after the main loop: the offset
adjustment of `masked_lms` (with its assert), re-padding of the buffer,
the stable sort by `pos_index`, `input_mask` with its first-pad asserts,
the `pos_index < len(seq)` filter into the four parallel lists, and the
sentinel padding up to `max_predictions_per_seq`. -/
def holeSequencePost (ctx : HoleCtx) (train : Bool) (st : HoleState) :
    Except String MaskSequenceR := do
  let n := ctx.seq.length
  let lms1 ← updateLmOffsets st.input_ids ctx.holeToken st.offset_idxs st.masked_lms
  let ids1 := st.input_ids ++ List.replicate (n - st.input_ids.length) ctx.padToken
  let lms2 := List.insertionSort (fun a b => a.pos_index ≤ b.pos_index) lms1
  let input_mask ←
    if ctx.padToken ∈ ids1 then do
      let fpi := ids1.findIdx (· = ctx.padToken)
      let lastTok ← pyGet ids1 ((fpi : Int) - 1)
      if lastTok = ctx.padToken then .error "AssertionError: invalid pad index"
      else pure ((List.range n).map (fun i => if i < fpi then (1:Nat) else 0))
    else pure (List.replicate n (1:Nat))
  let seen : Nat := if train then 1 else 0
  let real := lms2.filter (fun p => p.pos_index < (n : Int))
  let padCount := ctx.trainingMaxPredictions - real.length
  .ok ⟨seen, ctx.seq, ids1.take n, input_mask,
    real.map (·.pos_index) ++ List.replicate padCount 0,
    real.map (·.token_id) ++ List.replicate padCount ctx.padToken,
    real.map (fun _ => (1:ℚ)) ++ List.replicate padCount 0,
    real.map (·.hole_length) ++ List.replicate padCount (-1), 0⟩

/-- `_holeSequence` on an already-1-dimensional sequence: main loop then
post-processing. -/
def holeSequenceCore (ctx : HoleCtx) (train : Bool) (samples : Nat → Nat)
    (candidates : List Nat) : Except String MaskSequenceR := do
  let st ← holeLoop ctx samples (holesToPredictOf ctx) candidates (initHoleState ctx)
  holeSequencePost ctx train st

/-- A numpy array together with its dimensionality, for the
`assert seq.ndim == 1` guard. -/
structure NpArray where
  ndim : Nat
  data : List Nat
deriving DecidableEq, Repr

/-- The atomizer ids and options of `_holeSequence`, without the input
sequence. -/
structure HoleOpts where
  holeToken : Nat
  padToken : Nat
  endholeToken : Nat
  maxPredictions : Nat
  trainingMaxPredictions : Nat
  maskedLmProb : ℚ
deriving DecidableEq, Repr

/-- Build the per-call context from the options and the input sequence. -/
def mkHoleCtx (opts : HoleOpts) (data : List Nat) : HoleCtx :=
  ⟨data, opts.holeToken, opts.padToken, opts.endholeToken, opts.maxPredictions,
    opts.trainingMaxPredictions, opts.maskedLmProb⟩

/-- `_holeSequence` including the leading
`assert seq.ndim == 1, "Input for masking must be single-dimension array."`. -/
def holeSequenceNp (opts : HoleOpts) (arr : NpArray) (train : Bool)
    (samples : Nat → Nat) (candidates : List Nat) : Except String MaskSequenceR :=
  if arr.ndim = 1 then holeSequenceCore (mkHoleCtx opts arr.data) train samples candidates
  else .error "Input for masking must be single-dimension array."

/-! ### C1: the offset table tracks `Σ (1 - Li)` over the recorded holes -/

/-- The sum of `1 - hole_length` over the recorded holes whose original
position is below `q` — the claim's `Σ (1 - Li)` over earlier holes with
position `< q`. -/
def holeSumBelow (lms : List MaskedLmInstance) (q : Nat) : Int :=
  ((lms.filter (fun lm => lm.pos_index < (q : Int))).map (fun lm => 1 - lm.hole_length)).sum

theorem holeSumBelow_append (lms : List MaskedLmInstance) (lm : MaskedLmInstance) (q : Nat) :
    holeSumBelow (lms ++ [lm]) q =
      holeSumBelow lms q + (if lm.pos_index < (q : Int) then 1 - lm.hole_length else 0) := by
  unfold holeSumBelow
  rw [List.filter_append]
  by_cases h : lm.pos_index < (q : Int)
  · rw [List.filter_cons, if_pos (by simpa using h)]
    simp [h]
  · rw [List.filter_cons, if_neg (by simpa using h)]
    simp [h]

theorem addToSuffix_nil (start : Nat) (c : Int) : addToSuffix [] start c = [] := by
  simp [addToSuffix]

theorem addToSuffix_zero (offs : List Int) (c : Int) :
    addToSuffix offs 0 c = offs.map (· + c) := by
  simp [addToSuffix]

theorem addToSuffix_cons_succ (o : Int) (offs : List Int) (s : Nat) (c : Int) :
    addToSuffix (o :: offs) (s + 1) c = o :: addToSuffix offs s c := by
  simp [addToSuffix]

theorem addToSuffix_get? (offs : List Int) (start : Nat) (c : Int) (q : Nat) :
    (addToSuffix offs start c).get? q =
      (offs.get? q).map (fun v => v + if start ≤ q then c else 0) := by
  induction offs generalizing start q with
  | nil => simp [addToSuffix_nil]
  | cons o rest ih =>
    cases start with
    | zero =>
      rw [addToSuffix_zero]
      cases q with
      | zero => simp
      | succ q' => simp [List.get?_map]
    | succ s =>
      rw [addToSuffix_cons_succ]
      cases q with
      | zero => simp
      | succ q' =>
        simp only [List.get?_cons_succ]
        rw [ih s q']
        congr 1
        funext v
        congr 1
        simp

theorem addToSuffix_length (offs : List Int) (start : Nat) (c : Int) :
    (addToSuffix offs start c).length = offs.length := by
  unfold addToSuffix
  rw [List.length_append, List.length_take, List.length_map, List.length_drop]
  omega

/-- The C1 loop invariant: the offset table has the sequence's length and
entry `q` holds exactly `Σ (1 - Li)` over the holes recorded at positions
below `q`. -/
def OffInv (ctx : HoleCtx) (st : HoleState) : Prop :=
  st.offset_idxs.length = ctx.seq.length ∧
  ∀ q, q < ctx.seq.length → st.offset_idxs.get? q = some (holeSumBelow st.masked_lms q)

theorem offInv_init (ctx : HoleCtx) : OffInv ctx (initHoleState ctx) := by
  constructor
  · simp [initHoleState]
  · intro q hq
    rw [List.get?_eq_get (by simpa [initHoleState] using hq)]
    simp [initHoleState, holeSumBelow]

theorem offInv_step (ctx : HoleCtx) (st : HoleState) (hinv : OffInv ctx st)
    (pos : Nat) (target : Nat) (hl : Int) (ids1 : List Nat) (vis1 : List Nat)
    (counter1 : List (Int × Nat)) (total1 : Int) (ridx : Nat) :
    OffInv ctx ⟨ids1, addToSuffix st.offset_idxs (pos + 1) (1 - hl), vis1, total1,
      st.masked_lms ++ [⟨(pos : Int), target, hl⟩], counter1, ridx⟩ := by
  obtain ⟨hlen, hsum⟩ := hinv
  constructor
  · simpa [addToSuffix_length] using hlen
  · intro q hq
    simp only
    rw [addToSuffix_get?, hsum q hq, holeSumBelow_append]
    have hiff : (pos + 1 ≤ q) ↔ ((pos : Int) < (q : Int)) := by omega
    by_cases hc : pos + 1 ≤ q
    · rw [if_pos hc, if_pos (hiff.1 hc)]
      simp
    · rw [if_neg hc, if_neg (fun hx => hc (hiff.2 hx))]
      simp


/-! ### Step abstractions and an inversion principle for the main loop -/

/-- The clamped draw `hole_length = min(distribution.sample(),
len(input_ids) - input_id_idx)` of the current iteration. -/
def hl0Of (samples : Nat → Nat) (st : HoleState) (idx : Int) : Int :=
  min ((samples st.rngIdx : Nat) : Int) ((st.input_ids.length : Int) - idx)

/-- The spliced buffer `input_ids[:idx] + [hole] + input_ids[idx + hl:]`. -/
def stepIds (ctx : HoleCtx) (st : HoleState) (idx hl : Int) : List Nat :=
  pySliceTo st.input_ids idx ++ [ctx.holeToken] ++ pySliceFrom st.input_ids (idx + hl)

/-- The loop state after one full (non-skipped) iteration at `pos` with
offset-adjusted index `idx`, final hole length `hl` and target token
`target`. -/
def stepState (ctx : HoleCtx) (st : HoleState) (pos : Nat) (idx hl : Int)
    (target : Nat) : HoleState :=
  ⟨stepIds ctx st idx hl,
   addToSuffix st.offset_idxs (pos + 1) (1 - hl),
   visitRange st.visited pos hl,
   st.total_predictions + max 1 hl,
   st.masked_lms ++ [⟨(pos : Int), target, hl⟩],
   registerSample st.sample_counter hl,
   st.rngIdx + 1⟩

/-- Inversion of one successful iteration of `holeLoop`: either the break
fired, or the candidate was skipped (visited / beyond `len(seq)`), or a
hole was placed, with every intermediate read recorded. -/
theorem holeLoop_cons_ok (ctx : HoleCtx) (samples : Nat → Nat) (htp : Int)
    (pos : Nat) (rest : List Nat) (st st' : HoleState)
    (hrun : holeLoop ctx samples htp (pos :: rest) st = .ok st') :
    pos < ctx.seq.length ∧
    ∃ off, pyGet st.offset_idxs (pos : Int) = .ok off ∧
      ((htp ≤ st.total_predictions ∧ st' = st) ∨
       (¬ htp ≤ st.total_predictions ∧
        (pos ∈ st.visited ∨ (ctx.seq.length : Int) < (pos : Int) + off) ∧
        holeLoop ctx samples htp rest st = .ok st') ∨
       (¬ htp ≤ st.total_predictions ∧ pos ∉ st.visited ∧
        ¬ (ctx.seq.length : Int) < (pos : Int) + off ∧
        ∃ tok, pyGet st.input_ids ((pos : Int) + off) = .ok tok ∧
        ∃ scanRes, holeConflictScan st.input_ids ctx.holeToken ((pos : Int) + off)
            (hl0Of samples st ((pos : Int) + off)).toNat 0 = .ok scanRes ∧
        ∃ target,
          ((0 < holeLengthAfterScan scanRes (hl0Of samples st ((pos : Int) + off)) ∧
            pyGet st.input_ids ((pos : Int) + off) = .ok target) ∨
           (¬ 0 < holeLengthAfterScan scanRes (hl0Of samples st ((pos : Int) + off)) ∧
            target = ctx.endholeToken)) ∧
          recheckMaskedLms
            (stepIds ctx st ((pos : Int) + off)
              (holeLengthAfterScan scanRes (hl0Of samples st ((pos : Int) + off))))
            ctx.holeToken
            (addToSuffix st.offset_idxs (pos + 1)
              (1 - holeLengthAfterScan scanRes (hl0Of samples st ((pos : Int) + off))))
            (st.masked_lms ++ [⟨(pos : Int), target,
              holeLengthAfterScan scanRes (hl0Of samples st ((pos : Int) + off))⟩]) = .ok () ∧
          holeLoop ctx samples htp rest
            (stepState ctx st pos ((pos : Int) + off)
              (holeLengthAfterScan scanRes (hl0Of samples st ((pos : Int) + off)))
              target) = .ok st')) := by
  rw [holeLoop] at hrun
  by_cases hpos : pos < ctx.seq.length
  · rw [if_pos hpos] at hrun
    refine ⟨hpos, ?_⟩
    cases hoff : pyGet st.offset_idxs (pos : Int) with
    | error e => rw [hoff] at hrun; simp at hrun
    | ok off =>
      rw [hoff] at hrun
      simp only [exc_ok_bind] at hrun
      refine ⟨off, rfl, ?_⟩
      by_cases hbreak : htp ≤ st.total_predictions
      · rw [if_pos hbreak] at hrun
        simp only [Except.ok.injEq] at hrun
        exact Or.inl ⟨hbreak, hrun.symm⟩
      · rw [if_neg hbreak] at hrun
        by_cases hvis : pos ∈ st.visited
        · rw [if_pos hvis] at hrun
          exact Or.inr (Or.inl ⟨hbreak, Or.inl hvis, hrun⟩)
        · rw [if_neg hvis] at hrun
          by_cases hcrop : (ctx.seq.length : Int) < (pos : Int) + off
          · rw [if_pos hcrop] at hrun
            exact Or.inr (Or.inl ⟨hbreak, Or.inr hcrop, hrun⟩)
          · rw [if_neg hcrop] at hrun
            refine Or.inr (Or.inr ⟨hbreak, hvis, hcrop, ?_⟩)
            cases hread : pyGet st.input_ids ((pos : Int) + off) with
            | error e => rw [hread] at hrun; simp at hrun
            | ok tok =>
              rw [hread] at hrun
              simp only [exc_ok_bind] at hrun
              refine ⟨tok, rfl, ?_⟩
              cases hscan : holeConflictScan st.input_ids ctx.holeToken ((pos : Int) + off)
                  (hl0Of samples st ((pos : Int) + off)).toNat 0 with
              | error e =>
                rw [show (min ((samples st.rngIdx : Nat) : Int)
                    ((st.input_ids.length : Int) - ((pos : Int) + off))) =
                  hl0Of samples st ((pos : Int) + off) from rfl, hscan] at hrun
                simp at hrun
              | ok scanRes =>
                rw [show (min ((samples st.rngIdx : Nat) : Int)
                    ((st.input_ids.length : Int) - ((pos : Int) + off))) =
                  hl0Of samples st ((pos : Int) + off) from rfl, hscan] at hrun
                simp only [exc_ok_bind] at hrun
                refine ⟨scanRes, rfl, ?_⟩
                by_cases hl_pos : 0 < holeLengthAfterScan scanRes
                    (hl0Of samples st ((pos : Int) + off))
                · rw [if_pos hl_pos] at hrun
                  refine ⟨tok, Or.inl ⟨hl_pos, rfl⟩, ?_⟩
                  cases hrc : recheckMaskedLms
                      (stepIds ctx st ((pos : Int) + off)
                        (holeLengthAfterScan scanRes (hl0Of samples st ((pos : Int) + off))))
                      ctx.holeToken
                      (addToSuffix st.offset_idxs (pos + 1)
                        (1 - holeLengthAfterScan scanRes
                          (hl0Of samples st ((pos : Int) + off))))
                      (st.masked_lms ++ [⟨(pos : Int), tok,
                        holeLengthAfterScan scanRes
                          (hl0Of samples st ((pos : Int) + off))⟩]) with
                  | error e =>
                    rw [show stepIds ctx st ((pos : Int) + off)
                        (holeLengthAfterScan scanRes (hl0Of samples st ((pos : Int) + off))) =
                        pySliceTo st.input_ids ((pos : Int) + off) ++ [ctx.holeToken] ++
                          pySliceFrom st.input_ids (((pos : Int) + off) +
                            holeLengthAfterScan scanRes
                              (hl0Of samples st ((pos : Int) + off))) from rfl] at hrc
                    rw [hrc] at hrun
                    simp at hrun
                  | ok u =>
                    rw [show stepIds ctx st ((pos : Int) + off)
                        (holeLengthAfterScan scanRes (hl0Of samples st ((pos : Int) + off))) =
                        pySliceTo st.input_ids ((pos : Int) + off) ++ [ctx.holeToken] ++
                          pySliceFrom st.input_ids (((pos : Int) + off) +
                            holeLengthAfterScan scanRes
                              (hl0Of samples st ((pos : Int) + off))) from rfl] at hrc
                    rw [hrc] at hrun
                    simp only [exc_ok_bind] at hrun
                    exact ⟨rfl, hrun⟩
                · rw [if_neg hl_pos] at hrun
                  simp only [exc_pure_eq_ok, exc_ok_bind] at hrun
                  refine ⟨ctx.endholeToken, Or.inr ⟨hl_pos, rfl⟩, ?_⟩
                  cases hrc : recheckMaskedLms
                      (stepIds ctx st ((pos : Int) + off)
                        (holeLengthAfterScan scanRes (hl0Of samples st ((pos : Int) + off))))
                      ctx.holeToken
                      (addToSuffix st.offset_idxs (pos + 1)
                        (1 - holeLengthAfterScan scanRes
                          (hl0Of samples st ((pos : Int) + off))))
                      (st.masked_lms ++ [⟨(pos : Int), ctx.endholeToken,
                        holeLengthAfterScan scanRes
                          (hl0Of samples st ((pos : Int) + off))⟩]) with
                  | error e =>
                    rw [show stepIds ctx st ((pos : Int) + off)
                        (holeLengthAfterScan scanRes (hl0Of samples st ((pos : Int) + off))) =
                        pySliceTo st.input_ids ((pos : Int) + off) ++ [ctx.holeToken] ++
                          pySliceFrom st.input_ids (((pos : Int) + off) +
                            holeLengthAfterScan scanRes
                              (hl0Of samples st ((pos : Int) + off))) from rfl] at hrc
                    rw [hrc] at hrun
                    simp at hrun
                  | ok u =>
                    rw [show stepIds ctx st ((pos : Int) + off)
                        (holeLengthAfterScan scanRes (hl0Of samples st ((pos : Int) + off))) =
                        pySliceTo st.input_ids ((pos : Int) + off) ++ [ctx.holeToken] ++
                          pySliceFrom st.input_ids (((pos : Int) + off) +
                            holeLengthAfterScan scanRes
                              (hl0Of samples st ((pos : Int) + off))) from rfl] at hrc
                    rw [hrc] at hrun
                    simp only [exc_ok_bind] at hrun
                    exact ⟨rfl, hrun⟩
  · rw [if_neg hpos] at hrun
    simp at hrun

theorem holeLoop_offInv (ctx : HoleCtx) (samples : Nat → Nat) (htp : Int) :
    ∀ (cands : List Nat) (st st' : HoleState),
      holeLoop ctx samples htp cands st = .ok st' → OffInv ctx st → OffInv ctx st' := by
  intro cands
  induction cands with
  | nil =>
    intro st st' hrun hinv
    unfold holeLoop at hrun
    simp only [Except.ok.injEq] at hrun
    rw [← hrun]
    exact hinv
  | cons pos rest ih =>
    intro st st' hrun hinv
    obtain ⟨hpos, off, hoff, hcase⟩ := holeLoop_cons_ok ctx samples htp pos rest st st' hrun
    rcases hcase with ⟨_, rfl⟩ | ⟨_, _, hrest⟩ |
      ⟨_, _, _, tok, hread, scanRes, hscan, target, htgt, hrc, hrest⟩
    · exact hinv
    · exact ih _ _ hrest hinv
    · exact ih _ _ hrest (offInv_step ctx st hinv pos target _ _ _ _ _ _)

/-- C1: offset correctness.  For any run of the hole-insertion loop from
the initial state (any candidate order, any sample stream, any
`holes_to_predict` bound), and any original position `q` greater than the
positions of all holes processed so far, the offset table entry at `q` is
exactly `Σ (1 - Li)` over the recorded holes with position `< q` — so the
buffer index `q + offset[q]` of the token originally at `q` equals
`q + Σ (1 - Li)`. -/
theorem hole_offset_correctness (ctx : HoleCtx) (samples : Nat → Nat) (htp : Int)
    (cands : List Nat) (st' : HoleState)
    (hrun : holeLoop ctx samples htp cands (initHoleState ctx) = .ok st')
    (q : Nat) (hq : q < ctx.seq.length)
    (hgt : ∀ lm ∈ st'.masked_lms, lm.pos_index < (q : Int)) :
    st'.offset_idxs.get? q = some (holeSumBelow st'.masked_lms q) ∧
    (q : Int) + st'.offset_idxs.getD q 0 = (q : Int) + holeSumBelow st'.masked_lms q := by
  have hinv := holeLoop_offInv ctx samples htp cands (initHoleState ctx) st' hrun
    (offInv_init ctx)
  have h1 := hinv.2 q hq
  refine ⟨h1, ?_⟩
  have : st'.offset_idxs.getD q 0 = holeSumBelow st'.masked_lms q := by
    unfold List.getD
    rw [h1]
    rfl
  rw [this]

theorem hole_offset_correctness_witness :
    ((⟨[50, 6], [0, 0], [0], 1, [⟨0, 5, 1⟩], [(1, 1)], 1⟩ : HoleState).offset_idxs.get? 1 =
      some (holeSumBelow (⟨[50, 6], [0, 0], [0], 1, [⟨0, 5, 1⟩], [(1, 1)], 1⟩ :
        HoleState).masked_lms 1)) ∧
    ((1 : Nat) : Int) + (⟨[50, 6], [0, 0], [0], 1, [⟨0, 5, 1⟩], [(1, 1)], 1⟩ :
        HoleState).offset_idxs.getD 1 0 =
      ((1 : Nat) : Int) + holeSumBelow (⟨[50, 6], [0, 0], [0], 1, [⟨0, 5, 1⟩], [(1, 1)], 1⟩ :
        HoleState).masked_lms 1 :=
  hole_offset_correctness ⟨[5, 6], 50, 0, 51, 1, 2, 1/2⟩ (fun _ => 1) 1 [0]
    ⟨[50, 6], [0, 0], [0], 1, [⟨0, 5, 1⟩], [(1, 1)], 1⟩ (by decide) 1 (by decide) (by decide)


/-! ### The structural buffer invariant

The proof layer for C2/C5/C6: at every point of the loop the buffer
`input_ids` is, up to rendering, determined by the recorded holes — for
each original position `q` in order, a hole marker when some recorded hole
starts at `q`, followed by the original token unless `q` was consumed by a
hole footprint.  Positions, footprints and the offset table are tied
together by `BufInv`. -/

/-- `q` lies in the footprint `[pos, pos + len)` of the recorded hole. -/
def inFootprint (lm : MaskedLmInstance) (q : Nat) : Bool :=
  lm.pos_index ≤ (q : Int) ∧ (q : Int) < lm.pos_index + lm.hole_length

/-- Some recorded hole starts exactly at original position `q`. -/
def isLmPos (lms : List MaskedLmInstance) (q : Nat) : Bool :=
  lms.any (fun lm => lm.pos_index = (q : Int))

/-- Original position `q` has been consumed by some recorded hole. -/
def coveredBy (lms : List MaskedLmInstance) (q : Nat) : Bool :=
  lms.any (fun lm => inFootprint lm q)

/-- The ghost buffer entries contributed by original position `q`:
`none` is a hole marker, `some q` the surviving original token. -/
def chunkOf (lms : List MaskedLmInstance) (q : Nat) : List (Option Nat) :=
  (if isLmPos lms q then [none] else []) ++ (if coveredBy lms q then [] else [some q])

/-- The ghost buffer over original positions `0..n-1`. -/
def mkBuf (lms : List MaskedLmInstance) (n : Nat) : List (Option Nat) :=
  (List.range n).flatMap (chunkOf lms)

/-- Rendering a ghost entry to a token. -/
def render (seq : List Nat) (h : Nat) : Option Nat → Nat
  | none => h
  | some q => seq.getD q 0

/-- The buffer index at which position `q`'s chunk starts. -/
def bufIdx (lms : List MaskedLmInstance) (q : Nat) : Nat :=
  (mkBuf lms q).length

/-- `q` is not strictly inside any recorded footprint. -/
def freeAt (lms : List MaskedLmInstance) (q : Nat) : Prop :=
  ∀ lm ∈ lms, lm.pos_index + lm.hole_length ≤ (q : Int) ∨ (q : Int) ≤ lm.pos_index

/-- `q` is untouched: no recorded hole starts at it and none consumed it. -/
def freshAt (lms : List MaskedLmInstance) (q : Nat) : Prop :=
  isLmPos lms q = false ∧ coveredBy lms q = false

/-- The full loop invariant of `_holeSequence`'s main loop. -/
structure BufInv (ctx : HoleCtx) (st : HoleState) : Prop where
  offlen : st.offset_idxs.length = ctx.seq.length
  offsum : ∀ q, q < ctx.seq.length →
    st.offset_idxs.get? q = some (holeSumBelow st.masked_lms q)
  buf : st.input_ids = (mkBuf st.masked_lms ctx.seq.length).map (render ctx.seq ctx.holeToken)
  lmrange : ∀ lm ∈ st.masked_lms, 0 ≤ lm.pos_index ∧ lm.pos_index < (ctx.seq.length : Int) ∧
    0 ≤ lm.hole_length ∧ lm.pos_index + lm.hole_length ≤ (ctx.seq.length : Int)
  visited_iff : ∀ q : Nat, q ∈ st.visited ↔ coveredBy st.masked_lms q = true
  disj : st.masked_lms.Pairwise (fun l1 l2 => l1.pos_index ≠ l2.pos_index ∧
    (l1.pos_index + l1.hole_length ≤ l2.pos_index ∨
     l2.pos_index + l2.hole_length ≤ l1.pos_index))
  counters : ∀ pr ∈ st.sample_counter, 0 ≤ pr.1

theorem bufInv_init (ctx : HoleCtx) : BufInv ctx (initHoleState ctx) := by
  refine ⟨?_, ?_, ?_, ?_, ?_, ?_, ?_⟩
  · simp [initHoleState]
  · intro q hq
    rw [List.get?_eq_get (by simpa [initHoleState] using hq)]
    simp [initHoleState, holeSumBelow]
  · show ctx.seq = (mkBuf [] ctx.seq.length).map (render ctx.seq ctx.holeToken)
    unfold mkBuf chunkOf isLmPos coveredBy
    simp only [List.any_nil, Bool.false_eq_true, if_neg, if_false, List.nil_append]
    rw [show ((List.range ctx.seq.length).flatMap fun q => [some q]) =
      (List.range ctx.seq.length).map some from by
        induction ctx.seq.length with
        | zero => simp
        | succ n ih => simp [List.range_succ, ih]]
    rw [List.map_map]
    apply List.ext_get
    · simp
    · intro i h1 h2
      have h1' : i < ctx.seq.length := by simpa using h1
      simp [render, List.getD, List.getElem?_eq_getElem h1']
  · intro lm hlm
    simp [initHoleState] at hlm
  · intro q
    simp [initHoleState, coveredBy]
  · simp [initHoleState]
  · intro pr hpr
    simp [initHoleState] at hpr

/-! ### Counting lemmas for the ghost buffer -/

theorem countP_or_disjoint {α : Type} (l : List α) (P Q : α → Bool)
    (h : ∀ x ∈ l, ¬ (P x = true ∧ Q x = true)) :
    l.countP (fun x => P x || Q x) = l.countP P + l.countP Q := by
  induction l with
  | nil => simp
  | cons x xs ih =>
    rw [List.countP_cons, List.countP_cons, List.countP_cons,
      ih (fun y hy => h y (List.mem_cons_of_mem _ hy))]
    have hx := h x (List.mem_cons_self x xs)
    cases hP : P x <;> cases hQ : Q x <;> simp [hP, hQ] at hx ⊢ <;> omega

theorem range_countP_interval (a b q : Nat) :
    (List.range q).countP (fun p => decide (a ≤ p ∧ p < b)) = min b q - min a q := by
  induction q with
  | zero => simp
  | succ q ih =>
    rw [List.range_succ, List.countP_append, ih]
    by_cases hq : a ≤ q ∧ q < b
    · simp only [List.countP_cons, List.countP_nil]
      rw [if_pos (by simpa using hq)]
      omega
    · simp only [List.countP_cons, List.countP_nil]
      rw [if_neg (by simpa using hq)]
      omega

theorem coveredBy_cons (lm : MaskedLmInstance) (rest : List MaskedLmInstance) (q : Nat) :
    coveredBy (lm :: rest) q = (inFootprint lm q || coveredBy rest q) := by
  simp [coveredBy, List.any_cons]

theorem isLmPos_cons (lm : MaskedLmInstance) (rest : List MaskedLmInstance) (q : Nat) :
    isLmPos (lm :: rest) q = (decide (lm.pos_index = (q : Int)) || isLmPos rest q) := by
  simp [isLmPos, List.any_cons]

theorem inFootprint_countP (lm : MaskedLmInstance) (q : Nat)
    (h0 : 0 ≤ lm.pos_index) (hL : 0 ≤ lm.hole_length)
    (hfree : lm.pos_index + lm.hole_length ≤ (q : Int) ∨ (q : Int) ≤ lm.pos_index) :
    (((List.range q).countP (fun p => inFootprint lm p) : Int)) =
      if lm.pos_index < (q : Int) then lm.hole_length else 0 := by
  have hcong : (List.range q).countP (fun p => inFootprint lm p) =
      (List.range q).countP
        (fun p => decide (lm.pos_index.toNat ≤ p ∧ p < lm.pos_index.toNat + lm.hole_length.toNat)) := by
    apply List.countP_congr
    intro p _
    unfold inFootprint
    rcases Int.eq_ofNat_of_zero_le h0 with ⟨pn, hpn⟩
    rcases Int.eq_ofNat_of_zero_le hL with ⟨ln, hln⟩
    simp only [hpn, hln]
    rw [show ((pn : Int).toNat = pn) from rfl, show ((ln : Int).toNat = ln) from rfl]
    constructor <;> intro hx <;> [skip; skip] <;> simp_all <;> omega
  rw [hcong, range_countP_interval]
  rcases Int.eq_ofNat_of_zero_le h0 with ⟨pn, hpn⟩
  rcases Int.eq_ofNat_of_zero_le hL with ⟨ln, hln⟩
  simp only [hpn, hln] at hfree ⊢
  rw [show (((pn : Int)).toNat = pn) from rfl, show (((ln : Int)).toNat = ln) from rfl]
  by_cases hlt : ((pn : Int) < (q : Int))
  · rw [if_pos hlt]
    omega
  · rw [if_neg hlt]
    omega

theorem footprint_disjoint_of_pairwise (lm : MaskedLmInstance)
    (rest : List MaskedLmInstance)
    (hd : ∀ lm2 ∈ rest, lm.pos_index ≠ lm2.pos_index ∧
      (lm.pos_index + lm.hole_length ≤ lm2.pos_index ∨
       lm2.pos_index + lm2.hole_length ≤ lm.pos_index)) (p : Nat) :
    ¬ (inFootprint lm p = true ∧ coveredBy rest p = true) := by
  rintro ⟨h1, h2⟩
  unfold coveredBy at h2
  rw [List.any_eq_true] at h2
  obtain ⟨lm2, hlm2, hf2⟩ := h2
  unfold inFootprint at h1 hf2
  simp only [decide_eq_true_eq] at h1 hf2
  have := (hd lm2 hlm2).2
  omega

theorem covered_countP (lms : List MaskedLmInstance)
    (hdisj : lms.Pairwise (fun l1 l2 => l1.pos_index ≠ l2.pos_index ∧
      (l1.pos_index + l1.hole_length ≤ l2.pos_index ∨
       l2.pos_index + l2.hole_length ≤ l1.pos_index)))
    (hrange : ∀ lm ∈ lms, 0 ≤ lm.pos_index ∧ 0 ≤ lm.hole_length)
    (q : Nat) (hfree : freeAt lms q) :
    (((List.range q).countP (fun p => coveredBy lms p) : Int)) =
      ((lms.filter (fun lm => lm.pos_index < (q : Int))).map (fun lm => lm.hole_length)).sum := by
  induction lms with
  | nil => simp [coveredBy]
  | cons lm rest ih =>
    rw [List.pairwise_cons] at hdisj
    have hcong : (List.range q).countP (fun p => coveredBy (lm :: rest) p) =
        (List.range q).countP (fun p => inFootprint lm p || coveredBy rest p) := by
      apply List.countP_congr
      intro p _
      rw [coveredBy_cons]
    rw [hcong, countP_or_disjoint _ _ _
      (fun p _ => footprint_disjoint_of_pairwise lm rest hdisj.1 p)]
    push_cast
    rw [ih hdisj.2 (fun l hl => hrange l (List.mem_cons_of_mem _ hl)) (fun l hl =>
      hfree l (List.mem_cons_of_mem _ hl))]
    have h0 := hrange lm (List.mem_cons_self lm rest)
    rw [inFootprint_countP lm q h0.1 h0.2 (hfree lm (List.mem_cons_self lm rest))]
    rw [List.filter_cons]
    by_cases hlt : lm.pos_index < (q : Int)
    · simp [hlt]
    · simp [hlt]

theorem isLm_countP (lms : List MaskedLmInstance)
    (hdistinct : lms.Pairwise (fun l1 l2 => l1.pos_index ≠ l2.pos_index))
    (hrange : ∀ lm ∈ lms, 0 ≤ lm.pos_index) (q : Nat) :
    (List.range q).countP (fun p => isLmPos lms p) =
      (lms.filter (fun lm => lm.pos_index < (q : Int))).length := by
  induction lms with
  | nil => simp [isLmPos]
  | cons lm rest ih =>
    rw [List.pairwise_cons] at hdistinct
    have hcong : (List.range q).countP (fun p => isLmPos (lm :: rest) p) =
        (List.range q).countP
          (fun p : Nat => decide (lm.pos_index = (p : Int)) || isLmPos rest p) := by
      apply List.countP_congr
      intro p _
      rw [isLmPos_cons]
    have hdisj2 : ∀ p : Nat, p ∈ List.range q →
        ¬ (decide (lm.pos_index = (p : Int)) = true ∧ isLmPos rest p = true) := by
      rintro p _ ⟨h1, h2⟩
      simp only [decide_eq_true_eq] at h1
      unfold isLmPos at h2
      rw [List.any_eq_true] at h2
      obtain ⟨lm2, hlm2, hf2⟩ := h2
      simp only [decide_eq_true_eq] at hf2
      exact (hdistinct.1 lm2 hlm2) (by rw [h1, hf2])
    rw [hcong, countP_or_disjoint _ _ _ hdisj2]
    have hone : (List.range q).countP (fun p : Nat => decide (lm.pos_index = (p : Int))) =
        if lm.pos_index < (q : Int) then 1 else 0 := by
      have h0 := hrange lm (List.mem_cons_self lm rest)
      rcases Int.eq_ofNat_of_zero_le h0 with ⟨pn, hpn⟩
      have hcg : (List.range q).countP (fun p : Nat => decide (lm.pos_index = (p : Int))) =
          (List.range q).countP (fun p : Nat => decide (pn ≤ p ∧ p < pn + 1)) := by
        apply List.countP_congr
        intro p _
        simp only [hpn, decide_eq_true_eq]
        constructor
        · intro h
          omega
        · intro h
          omega
      rw [hcg, range_countP_interval]
      simp only [hpn]
      by_cases hlt : ((pn : Int) < (q : Int))
      · rw [if_pos hlt]
        omega
      · rw [if_neg hlt]
        omega
    rw [hone, ih hdistinct.2 (fun l hl => hrange l (List.mem_cons_of_mem _ hl))]
    rw [List.filter_cons]
    by_cases hlt : lm.pos_index < (q : Int)
    · simp [hlt]
      omega
    · simp [hlt]

theorem chunkOf_length (lms : List MaskedLmInstance) (q : Nat) :
    (chunkOf lms q).length =
      (if isLmPos lms q then 1 else 0) + (if coveredBy lms q then 0 else 1) := by
  unfold chunkOf
  by_cases h1 : isLmPos lms q <;> by_cases h2 : coveredBy lms q <;> simp [h1, h2]

theorem mkBuf_succ (lms : List MaskedLmInstance) (q : Nat) :
    mkBuf lms (q + 1) = mkBuf lms q ++ chunkOf lms q := by
  unfold mkBuf
  rw [List.range_succ, List.flatMap_append]
  simp

theorem bufIdx_succ (lms : List MaskedLmInstance) (q : Nat) :
    bufIdx lms (q + 1) = bufIdx lms q + (chunkOf lms q).length := by
  unfold bufIdx
  rw [mkBuf_succ, List.length_append]

theorem bufIdx_arith (lms : List MaskedLmInstance) (q : Nat) :
    (bufIdx lms q : Int) =
      (q : Int) + ((List.range q).countP (fun p => isLmPos lms p) : Int) -
        ((List.range q).countP (fun p => coveredBy lms p) : Int) := by
  induction q with
  | zero => simp [bufIdx, mkBuf]
  | succ q ih =>
    rw [bufIdx_succ, chunkOf_length, List.range_succ, List.countP_append, List.countP_append]
    simp only [List.countP_cons, List.countP_nil]
    cases h1 : isLmPos lms q <;> cases h2 : coveredBy lms q <;>
      simp [h1, h2] <;> push_cast <;> omega

theorem sum_one_sub (l : List MaskedLmInstance) :
    (l.map (fun lm => 1 - lm.hole_length)).sum =
      (l.length : Int) - (l.map (fun lm => lm.hole_length)).sum := by
  induction l with
  | nil => simp
  | cons lm rest ih =>
    simp only [List.map_cons, List.sum_cons, List.length_cons, ih]
    push_cast
    ring

theorem bufIdx_eq (lms : List MaskedLmInstance)
    (hdisj : lms.Pairwise (fun l1 l2 => l1.pos_index ≠ l2.pos_index ∧
      (l1.pos_index + l1.hole_length ≤ l2.pos_index ∨
       l2.pos_index + l2.hole_length ≤ l1.pos_index)))
    (hrange : ∀ lm ∈ lms, 0 ≤ lm.pos_index ∧ 0 ≤ lm.hole_length)
    (q : Nat) (hfree : freeAt lms q) :
    (bufIdx lms q : Int) = (q : Int) + holeSumBelow lms q := by
  rw [bufIdx_arith]
  rw [isLm_countP lms (hdisj.imp (fun h => h.1)) (fun lm h => (hrange lm h).1) q]
  rw [covered_countP lms hdisj hrange q hfree]
  unfold holeSumBelow
  rw [sum_one_sub]
  ring

theorem range'_split (s a b : Nat) :
    List.range' s (a + b) = List.range' s a ++ List.range' (s + a) b := by
  rw [add_comm a b, ← List.range'_append s a b 1]
  norm_num

theorem mkBuf_split (lms : List MaskedLmInstance) (p n : Nat) (h : p ≤ n) :
    mkBuf lms n = mkBuf lms p ++ (List.range' p (n - p)).flatMap (chunkOf lms) := by
  unfold mkBuf
  have hr : List.range n = List.range p ++ List.range' p (n - p) := by
    rw [List.range_eq_range', List.range_eq_range' p]
    conv_lhs => rw [show n = p + (n - p) from by omega]
    rw [range'_split 0 p (n - p)]
    norm_num
  rw [hr, List.flatMap_append]

theorem chunkOf_fresh (lms : List MaskedLmInstance) (q : Nat) (h : freshAt lms q) :
    chunkOf lms q = [some q] := by
  unfold chunkOf
  rw [h.1, h.2]
  simp

theorem chunkOf_isLm (lms : List MaskedLmInstance) (q : Nat) (h : isLmPos lms q = true) :
    chunkOf lms q = none :: (if coveredBy lms q then [] else [some q]) := by
  unfold chunkOf
  rw [h]
  simp

theorem flatMap_fresh_run (lms : List MaskedLmInstance) :
    ∀ (k s : Nat), (∀ i, i < k → freshAt lms (s + i)) →
    (List.range' s k).flatMap (chunkOf lms) = (List.range' s k).map some := by
  intro k
  induction k with
  | zero => intro s _; simp
  | succ k ih =>
    intro s h
    rw [show List.range' s (k + 1) = s :: List.range' (s + 1) k from rfl]
    rw [List.flatMap_cons, List.map_cons]
    rw [chunkOf_fresh lms s (by simpa using h 0 (Nat.succ_pos k))]
    rw [ih (s + 1) (fun i hi => by
      have := h (i + 1) (by omega)
      rwa [show s + (i + 1) = s + 1 + i from by omega] at this)]
    rfl

theorem mkBuf_drop (lms : List MaskedLmInstance) (n q : Nat) (hq : q < n) :
    (mkBuf lms n).drop (bufIdx lms q) =
      chunkOf lms q ++ (List.range' (q + 1) (n - (q + 1))).flatMap (chunkOf lms) := by
  rw [mkBuf_split lms q n (le_of_lt hq)]
  rw [show bufIdx lms q = (mkBuf lms q).length from rfl]
  rw [List.drop_left]
  rw [show n - q = 1 + (n - (q + 1)) from by omega, range'_split q 1 (n - (q + 1))]
  rw [List.flatMap_append]
  simp

theorem run_exists (lms : List MaskedLmInstance) (n p : Nat) (hp : p < n)
    (hfresh : freshAt lms p)
    (hlm_lt : ∀ lm ∈ lms, lm.pos_index < (n : Int)) :
    ∃ D : Nat, 1 ≤ D ∧ p + D ≤ n ∧
      (∀ i, i < D → freshAt lms (p + i)) ∧
      (p + D = n ∨ isLmPos lms (p + D) = true) := by
  have hex : ∃ d : Nat, (p + (d + 1) = n ∨ isLmPos lms (p + (d + 1)) = true) :=
    ⟨n - p - 1, Or.inl (by omega)⟩
  classical
  set d0 := Nat.find hex with hd0
  refine ⟨d0 + 1, by omega, ?_, ?_, Nat.find_spec hex⟩
  · rcases Nat.find_spec hex with h | h
    · omega
    · unfold isLmPos at h
      rw [List.any_eq_true] at h
      obtain ⟨lm, hlm, hpos⟩ := h
      simp only [decide_eq_true_eq] at hpos
      have := hlm_lt lm hlm
      omega
  · intro i hi
    induction i with
    | zero => simpa using hfresh
    | succ i ihi =>
      have hfr : freshAt lms (p + i) := ihi (by omega)
      have hnP : ¬ (p + (i + 1) = n ∨ isLmPos lms (p + (i + 1)) = true) := by
        have := Nat.find_min hex (show i < d0 from by omega)
        simpa using this
      push_neg at hnP
      constructor
      · cases hlm2 : isLmPos lms (p + (i + 1))
        · rfl
        · exact absurd hlm2 hnP.2
      · cases hcov : coveredBy lms (p + (i + 1))
        · rfl
        · exfalso
          unfold coveredBy at hcov
          rw [List.any_eq_true] at hcov
          obtain ⟨lm, hlm, hfoot⟩ := hcov
          unfold inFootprint at hfoot
          simp only [decide_eq_true_eq] at hfoot
          have hne : lm.pos_index ≠ ((p + (i + 1) : Nat) : Int) := by
            intro hcontra
            have : isLmPos lms (p + (i + 1)) = true := by
              unfold isLmPos
              rw [List.any_eq_true]
              exact ⟨lm, hlm, by simpa using hcontra⟩
            exact hnP.2 this
          have hcov_i : coveredBy lms (p + i) = true := by
            unfold coveredBy
            rw [List.any_eq_true]
            refine ⟨lm, hlm, ?_⟩
            unfold inFootprint
            simp only [decide_eq_true_eq]
            push_cast at hfoot hne ⊢
            omega
          rw [hfr.2] at hcov_i
          exact absurd hcov_i (by simp)

theorem freeAt_of_not_covered (lms : List MaskedLmInstance) (p : Nat)
    (h : coveredBy lms p = false) : freeAt lms p := by
  intro lm hlm
  cases hf : inFootprint lm p with
  | false =>
    unfold inFootprint at hf
    simp only [decide_eq_false_iff_not, not_and, not_lt] at hf
    by_cases hle : lm.pos_index ≤ (p : Int)
    · exact Or.inl (hf hle)
    · exact Or.inr (le_of_lt (lt_of_not_le hle))
  | true =>
    exfalso
    have : coveredBy lms p = true := by
      unfold coveredBy
      rw [List.any_eq_true]
      exact ⟨lm, hlm, hf⟩
    rw [h] at this
    exact absurd this (by simp)

theorem pairwise_disj_symm (lms : List MaskedLmInstance)
    (hdisj : lms.Pairwise (fun l1 l2 => l1.pos_index ≠ l2.pos_index ∧
      (l1.pos_index + l1.hole_length ≤ l2.pos_index ∨
       l2.pos_index + l2.hole_length ≤ l1.pos_index)))
    {lm1 lm2 : MaskedLmInstance} (h1 : lm1 ∈ lms) (h2 : lm2 ∈ lms)
    (hne : lm1 ≠ lm2) :
    lm1.pos_index ≠ lm2.pos_index ∧
      (lm1.pos_index + lm1.hole_length ≤ lm2.pos_index ∨
       lm2.pos_index + lm2.hole_length ≤ lm1.pos_index) := by
  have hsymm : Symmetric (fun l1 l2 : MaskedLmInstance => l1.pos_index ≠ l2.pos_index ∧
      (l1.pos_index + l1.hole_length ≤ l2.pos_index ∨
       l2.pos_index + l2.hole_length ≤ l1.pos_index)) := by
    intro a b hab
    exact ⟨hab.1.symm, hab.2.symm⟩
  exact List.Pairwise.forall hsymm hdisj h1 h2 hne

theorem freeAt_lmpos (lms : List MaskedLmInstance)
    (hdisj : lms.Pairwise (fun l1 l2 => l1.pos_index ≠ l2.pos_index ∧
      (l1.pos_index + l1.hole_length ≤ l2.pos_index ∨
       l2.pos_index + l2.hole_length ≤ l1.pos_index)))
    (hrange : ∀ lm ∈ lms, 0 ≤ lm.pos_index ∧ 0 ≤ lm.hole_length)
    {lm : MaskedLmInstance} (hlm : lm ∈ lms) :
    freeAt lms lm.pos_index.toNat := by
  intro lm2 hlm2
  by_cases heq : lm2 = lm
  · subst heq
    right
    have := (hrange lm2 hlm2).1
    omega
  · obtain ⟨hne, hd⟩ := pairwise_disj_symm lms hdisj hlm2 hlm heq
    have h0 := (hrange lm hlm).1
    have hL := (hrange lm hlm).2
    rcases hd with h | h
    · left
      omega
    · right
      omega

theorem holeConflictScan_no_hit (ids : List Nat) (h : Nat) (a : Int) :
    ∀ (fuel i : Nat),
      (∀ j : Nat, i ≤ j → j < i + fuel → ∃ v, pyGet ids (a + (j : Int)) = .ok v ∧ v ≠ h) →
      holeConflictScan ids h a fuel i = .ok none := by
  intro fuel
  induction fuel with
  | zero => intro i _; rfl
  | succ fuel ih =>
    intro i hreads
    obtain ⟨v, hv, hvne⟩ := hreads i (le_refl i) (by omega)
    unfold holeConflictScan
    rw [hv]
    simp only [exc_ok_bind]
    rw [if_neg hvne]
    exact ih (i + 1) (fun j hj1 hj2 => hreads j (by omega) (by omega))

theorem holeConflictScan_hit (ids : List Nat) (h : Nat) (a : Int) :
    ∀ (fuel i k : Nat), i ≤ k → k < i + fuel →
      (∀ j : Nat, i ≤ j → j < k → ∃ v, pyGet ids (a + (j : Int)) = .ok v ∧ v ≠ h) →
      pyGet ids (a + (k : Int)) = .ok h →
      holeConflictScan ids h a fuel i = .ok (some k) := by
  intro fuel
  induction fuel with
  | zero => intro i k h1 h2 _ _; omega
  | succ fuel ih =>
    intro i k h1 h2 hreads hk
    by_cases hik : i = k
    · subst hik
      unfold holeConflictScan
      rw [hk]
      simp
    · obtain ⟨v, hv, hvne⟩ := hreads i (le_refl i) (by omega)
      unfold holeConflictScan
      rw [hv]
      simp only [exc_ok_bind]
      rw [if_neg hvne]
      exact ih (i + 1) k (by omega) (by omega)
        (fun j hj1 hj2 => hreads j (by omega) hj2) hk

theorem pyGet_of_get? {α : Type} (l : List α) (j : Nat) (v : α)
    (h : l.get? j = some v) : pyGet l ((j : Nat) : Int) = .ok v := by
  rcases List.get?_eq_some.1 h with ⟨hlt, hv⟩
  rw [pyGet_nonneg l (j : Int) (by positivity) (by simpa using hlt)]
  exact congrArg Except.ok hv

/-- Everything known about one fresh (unvisited, not-yet-holed) candidate
position of the loop: its buffer index, the run of surviving original
tokens after it, and what every read the loop performs returns. -/
theorem fresh_analysis (ctx : HoleCtx) (st : HoleState) (inv : BufInv ctx st)
    (hhole : ctx.holeToken ∉ ctx.seq)
    (p : Nat) (hp : p < ctx.seq.length)
    (hnotlm : isLmPos st.masked_lms p = false)
    (hnotvis : p ∉ st.visited) :
    ∃ (A D : Nat),
      (p : Int) + holeSumBelow st.masked_lms p = (A : Int) ∧
      A = bufIdx st.masked_lms p ∧
      1 ≤ D ∧ p + D ≤ ctx.seq.length ∧
      (∀ i, i < D → freshAt st.masked_lms (p + i)) ∧
      (p + D = ctx.seq.length ∨ isLmPos st.masked_lms (p + D) = true) ∧
      A + D ≤ st.input_ids.length ∧
      (p + D = ctx.seq.length → st.input_ids.length = A + D) ∧
      (∀ i, i < D → pyGet st.input_ids ((A : Int) + (i : Int)) =
        .ok (ctx.seq.getD (p + i) 0) ∧ ctx.seq.getD (p + i) 0 ≠ ctx.holeToken) ∧
      (isLmPos st.masked_lms (p + D) = true →
        pyGet st.input_ids ((A : Int) + (D : Int)) = .ok ctx.holeToken) := by
  have hcov : coveredBy st.masked_lms p = false := by
    cases hc : coveredBy st.masked_lms p with
    | false => rfl
    | true => exact absurd ((inv.visited_iff p).2 hc) hnotvis
  have hfresh : freshAt st.masked_lms p := ⟨hnotlm, hcov⟩
  have hrange2 : ∀ lm ∈ st.masked_lms, 0 ≤ lm.pos_index ∧ 0 ≤ lm.hole_length :=
    fun lm hlm => ⟨(inv.lmrange lm hlm).1, (inv.lmrange lm hlm).2.2.1⟩
  obtain ⟨D, hD1, hDle, hDfresh, hDend⟩ := run_exists st.masked_lms ctx.seq.length p hp hfresh
    (fun lm hlm => (inv.lmrange lm hlm).2.1)
  set n := ctx.seq.length with hn
  set A := bufIdx st.masked_lms p with hA
  have c0 : (p : Int) + holeSumBelow st.masked_lms p = (A : Int) :=
    (bufIdx_eq st.masked_lms inv.disj hrange2 p (freeAt_of_not_covered _ _ hcov)).symm
  have hdecomp : mkBuf st.masked_lms n =
      mkBuf st.masked_lms p ++ (List.range' p D).map some ++
        (List.range' (p + D) (n - p - D)).flatMap (chunkOf st.masked_lms) := by
    rw [mkBuf_split st.masked_lms p n (le_of_lt hp)]
    conv_lhs => rw [show n - p = D + (n - p - D) from by omega,
      range'_split p D (n - p - D)]
    rw [List.flatMap_append, flatMap_fresh_run st.masked_lms D p hDfresh]
    rw [List.append_assoc]
  have hlen_mk : st.input_ids.length = (mkBuf st.masked_lms n).length := by
    rw [inv.buf, List.length_map]
  have hlen_decomp : (mkBuf st.masked_lms n).length =
      A + D + ((List.range' (p + D) (n - p - D)).flatMap (chunkOf st.masked_lms)).length := by
    rw [hdecomp]
    simp only [List.length_append, List.length_map, List.length_range', bufIdx, hA]
  refine ⟨A, D, c0, rfl, hD1, hDle, hDfresh, hDend, ?_, ?_, ?_, ?_⟩
  · omega
  · intro hend
    have : n - p - D = 0 := by omega
    rw [hlen_mk, hlen_decomp, this]
    simp
  · intro i hi
    have hget : (mkBuf st.masked_lms n).get? (A + i) = some (some (p + i)) := by
      rw [hdecomp]
      rw [List.get?_append]
      · rw [List.get?_append_right (by simp [hA, bufIdx])]
        rw [show A + i - (mkBuf st.masked_lms p).length = i from by
          simp [hA, bufIdx]]
        rw [List.get?_map, List.get?_range']
        · simp
        · exact hi
      · simp only [List.length_append, List.length_map, List.length_range']
        have : (mkBuf st.masked_lms p).length = A := rfl
        omega
    have hgetids : st.input_ids.get? (A + i) = some (ctx.seq.getD (p + i) 0) := by
      rw [inv.buf, List.get?_map, hget]
      rfl
    have hread := pyGet_of_get? st.input_ids (A + i) _ hgetids
    constructor
    · rw [show (A : Int) + (i : Int) = ((A + i : Nat) : Int) from by push_cast; ring]
      exact hread
    · intro hctr
      have hmem : ctx.seq.getD (p + i) 0 ∈ ctx.seq := by
        rw [List.getD_eq_getElem ctx.seq 0 (by omega)]
        exact List.getElem_mem _
      rw [hctr] at hmem
      exact hhole hmem
  · intro hisLm
    have hplt : p + D < n := by
      rcases hDend with h | h
      · exfalso
        unfold isLmPos at hisLm
        rw [List.any_eq_true] at hisLm
        obtain ⟨lm, hlm, hpos⟩ := hisLm
        simp only [decide_eq_true_eq] at hpos
        have := (inv.lmrange lm hlm).2.1
        omega
      · unfold isLmPos at h
        rw [List.any_eq_true] at h
        obtain ⟨lm, hlm, hpos⟩ := h
        simp only [decide_eq_true_eq] at hpos
        have := (inv.lmrange lm hlm).2.1
        omega
    have hsplit2 : n - p - D = 1 + (n - p - D - 1) := by omega
    have hget : (mkBuf st.masked_lms n).get? (A + D) = some none := by
      rw [hdecomp]
      rw [List.get?_append_right (by
        simp only [List.length_append, List.length_map, List.length_range']
        have : (mkBuf st.masked_lms p).length = A := rfl
        omega)]
      rw [show A + D - ((mkBuf st.masked_lms p) ++
          (List.range' p D).map some).length = 0 from by
        simp only [List.length_append, List.length_map, List.length_range']
        have : (mkBuf st.masked_lms p).length = A := rfl
        omega]
      rw [hsplit2, range'_split (p + D) 1 (n - p - D - 1)]
      rw [List.flatMap_append]
      rw [show List.range' (p + D) 1 = [p + D] from rfl]
      rw [show ([p + D] : List Nat).flatMap (chunkOf st.masked_lms) =
        chunkOf st.masked_lms (p + D) ++ [] from by simp]
      rw [chunkOf_isLm st.masked_lms (p + D) hisLm]
      simp
    have hgetids : st.input_ids.get? (A + D) = some ctx.holeToken := by
      rw [inv.buf, List.get?_map, hget]
      rfl
    have hread := pyGet_of_get? st.input_ids (A + D) _ hgetids
    rw [show (A : Int) + (D : Int) = ((A + D : Nat) : Int) from by push_cast; ring]
    exact hread

/-! ### Effect of recording one more hole on the ghost buffer -/

theorem isLmPos_append (lms : List MaskedLmInstance) (lm : MaskedLmInstance) (q : Nat) :
    isLmPos (lms ++ [lm]) q = (isLmPos lms q || decide (lm.pos_index = (q : Int))) := by
  unfold isLmPos
  rw [List.any_append]
  simp

theorem coveredBy_append (lms : List MaskedLmInstance) (lm : MaskedLmInstance) (q : Nat) :
    coveredBy (lms ++ [lm]) q = (coveredBy lms q || inFootprint lm q) := by
  unfold coveredBy
  rw [List.any_append]
  simp

theorem chunkOf_append_out (lms : List MaskedLmInstance) (lm : MaskedLmInstance) (q : Nat)
    (h1 : ¬ lm.pos_index = (q : Int)) (h2 : inFootprint lm q = false) :
    chunkOf (lms ++ [lm]) q = chunkOf lms q := by
  unfold chunkOf
  rw [isLmPos_append, coveredBy_append, h2]
  simp [h1]

theorem chunk_flatMap_congr (l : List Nat) (f g : Nat → List (Option Nat))
    (h : ∀ x ∈ l, f x = g x) : l.flatMap f = l.flatMap g := by
  induction l with
  | nil => rfl
  | cons x xs ih =>
    rw [List.flatMap_cons, List.flatMap_cons, h x (List.mem_cons_self x xs),
      ih (fun y hy => h y (List.mem_cons_of_mem _ hy))]

theorem bufIdx_fresh_run (lms : List MaskedLmInstance) (p : Nat) :
    ∀ k : Nat, (∀ i, i < k → freshAt lms (p + i)) →
      bufIdx lms (p + k) = bufIdx lms p + k := by
  intro k
  induction k with
  | zero => intro _; simp
  | succ k ih =>
    intro h
    rw [show p + (k + 1) = (p + k) + 1 from by omega, bufIdx_succ,
      ih (fun i hi => h i (by omega)),
      chunkOf_fresh lms (p + k) (h k (by omega))]
    simp only [List.length_cons, List.length_nil]
    omega

theorem registerSample_nonneg (c : List (Int × Nat)) (v : Int)
    (hc : ∀ pr ∈ c, 0 ≤ pr.1) (hv : 0 ≤ v) :
    ∀ pr ∈ registerSample c v, 0 ≤ pr.1 := by
  intro pr hpr
  unfold registerSample at hpr
  by_cases h : (c.lookup v).isSome
  · rw [if_pos h] at hpr
    obtain ⟨pr0, hpr0, heq⟩ := List.mem_map.1 hpr
    by_cases h2 : pr0.1 = v
    · rw [if_pos h2] at heq
      rw [← heq]
      simpa [h2] using hv
    · rw [if_neg h2] at heq
      rw [← heq]
      exact hc pr0 hpr0
  · rw [if_neg h] at hpr
    rcases List.mem_append.1 hpr with h1 | h1
    · exact hc pr h1
    · simp only [List.mem_singleton] at h1
      rw [h1]
      simpa using hv

/-- Recording a hole of length `hl` starting at a fresh position `p`
replaces the fresh run `p .. p + hl - 1` of the ghost buffer by a single
hole marker (for `hl = 0`, inserts the marker before the surviving
token). -/
theorem mkBuf_append_lm (lms : List MaskedLmInstance) (p n : Nat) (t : Nat) (hl : Int)
    (hl0 : 0 ≤ hl)
    (hfresh : ∀ i, i < hl.toNat → freshAt lms (p + i))
    (hfp : freshAt lms p)
    (hple : p + hl.toNat ≤ n) (hpn : p < n) :
    mkBuf (lms ++ [⟨(p : Int), t, hl⟩]) n =
      mkBuf lms p ++ [none] ++
        (List.range' (p + hl.toNat) (n - (p + hl.toNat))).flatMap (chunkOf lms) := by
  have hlcast : (hl.toNat : Int) = hl := Int.toNat_of_nonneg hl0
  have hlow : mkBuf (lms ++ [⟨(p : Int), t, hl⟩]) p = mkBuf lms p := by
    unfold mkBuf
    apply chunk_flatMap_congr
    intro q hq
    rw [List.mem_range] at hq
    apply chunkOf_append_out
    · intro hcontra
      simp only at hcontra
      omega
    · simp only [inFootprint]
      simp only [decide_eq_false_iff_not, not_and, not_lt]
      intro hcontra
      omega
  have htail : ∀ q : Nat, p < q → p + hl.toNat ≤ q →
      chunkOf (lms ++ [⟨(p : Int), t, hl⟩]) q = chunkOf lms q := by
    intro q h1 h2
    apply chunkOf_append_out
    · intro hcontra
      simp only at hcontra
      omega
    · simp only [inFootprint]
      simp only [decide_eq_false_iff_not, not_and, not_lt]
      intro hcontra
      omega
  have hlmpos : isLmPos (lms ++ [⟨(p : Int), t, hl⟩]) p = true := by
    rw [isLmPos_append]
    simp
  rw [mkBuf_split (lms ++ [(⟨(p : Int), t, hl⟩ : MaskedLmInstance)]) p n (le_of_lt hpn), hlow]
  by_cases hz : hl.toNat = 0
  · have hl_eq : hl = 0 := by omega
    have hchunkp : chunkOf (lms ++ [⟨(p : Int), t, hl⟩]) p = [none, some p] := by
      unfold chunkOf
      rw [hlmpos, coveredBy_append, hfp.2]
      simp only [inFootprint]
      rw [hl_eq]
      simp
    rw [show n - p = 1 + (n - p - 1) from by omega, range'_split p 1 (n - p - 1)]
    rw [List.flatMap_append]
    rw [show List.range' p 1 = [p] from rfl]
    rw [show ([p] : List Nat).flatMap (chunkOf (lms ++ [⟨(p : Int), t, hl⟩])) =
      chunkOf (lms ++ [⟨(p : Int), t, hl⟩]) p from by simp]
    rw [hchunkp]
    rw [chunk_flatMap_congr (List.range' (p + 1) (n - p - 1)) _ (chunkOf lms)
      (fun q hq => by
        rw [List.mem_range'_1] at hq
        exact htail q (by omega) (by omega))]
    rw [hz]
    rw [show p + 0 = p from rfl, show n - p = 1 + (n - p - 1) from by omega,
      range'_split p 1 (n - p - 1), List.flatMap_append]
    rw [show List.range' p 1 = [p] from rfl]
    rw [show ([p] : List Nat).flatMap (chunkOf lms) = chunkOf lms p from by simp]
    rw [chunkOf_fresh lms p hfp]
    simp
  · have hchunkp : chunkOf (lms ++ [⟨(p : Int), t, hl⟩]) p = [none] := by
      unfold chunkOf
      rw [hlmpos, coveredBy_append, hfp.2]
      rw [show inFootprint ⟨(p : Int), t, hl⟩ p = true from by
        simp only [inFootprint]
        simp only [decide_eq_true_eq]
        omega]
      simp
    rw [show n - p = hl.toNat + (n - p - hl.toNat) from by omega,
      range'_split p hl.toNat (n - p - hl.toNat)]
    rw [List.flatMap_append]
    rw [show List.range' p hl.toNat = p :: List.range' (p + 1) (hl.toNat - 1) from by
      conv_lhs => rw [show hl.toNat = 1 + (hl.toNat - 1) from by omega,
        range'_split p 1 (hl.toNat - 1)]
      rfl]
    rw [List.flatMap_cons, hchunkp]
    rw [chunk_flatMap_congr (List.range' (p + 1) (hl.toNat - 1)) _ (fun _ => [])
      (fun q hq => by
        rw [List.mem_range'_1] at hq
        have hfr := hfresh (q - p) (by omega)
        rw [show p + (q - p) = q from by omega] at hfr
        unfold chunkOf
        rw [isLmPos_append, coveredBy_append, hfr.1]
        rw [show (decide ((⟨(p : Int), t, hl⟩ : MaskedLmInstance).pos_index = (q : Int))) =
          false from decide_eq_false (by
            intro hcontra
            have hc2 : (p : Int) = (q : Int) := hcontra
            omega)]
        rw [show inFootprint ⟨(p : Int), t, hl⟩ q = true from by
          simp only [inFootprint]
          simp only [decide_eq_true_eq]
          omega]
        simp)]
    rw [show (List.range' (p + 1) (hl.toNat - 1)).flatMap
      (fun _ => ([] : List (Option Nat))) = [] from by simp]
    rw [chunk_flatMap_congr (List.range' (p + hl.toNat) (n - p - hl.toNat)) _ (chunkOf lms)
      (fun q hq => by
        rw [List.mem_range'_1] at hq
        exact htail q (by omega) (by omega))]
    rw [show n - p - hl.toNat = n - (p + hl.toNat) from by omega]
    simp

/-- The spliced buffer of one loop iteration at a fresh position is the
rendering of the ghost buffer of the extended hole list. -/
theorem stepIds_eq (ctx : HoleCtx) (st : HoleState) (inv : BufInv ctx st)
    (p : Nat) (hp : p < ctx.seq.length)
    (hl : Int) (target : Nat) (hl0 : 0 ≤ hl)
    (hfresh : ∀ i, i < hl.toNat → freshAt st.masked_lms (p + i))
    (hfp : freshAt st.masked_lms p)
    (hple : p + hl.toNat ≤ ctx.seq.length) :
    stepIds ctx st ((bufIdx st.masked_lms p : Nat) : Int) hl =
      (mkBuf (st.masked_lms ++ [⟨(p : Int), target, hl⟩]) ctx.seq.length).map
        (render ctx.seq ctx.holeToken) := by
  set n := ctx.seq.length with hn
  set A := bufIdx st.masked_lms p with hA
  have hlcast : (hl.toNat : Int) = hl := Int.toNat_of_nonneg hl0
  unfold stepIds
  rw [pySliceTo_nonneg _ _ (by omega)]
  rw [pySliceFrom_nonneg _ _ (by omega)]
  rw [show ((A : Nat) : Int).toNat = A from by omega]
  rw [show (((A : Nat) : Int) + hl).toNat = A + hl.toNat from by omega]
  rw [inv.buf]
  rw [← List.map_take, ← List.map_drop]
  rw [mkBuf_append_lm st.masked_lms p n target hl hl0 hfresh hfp hple hp]
  have htake : (mkBuf st.masked_lms n).take A = mkBuf st.masked_lms p := by
    rw [mkBuf_split st.masked_lms p n (le_of_lt hp)]
    rw [show A = (mkBuf st.masked_lms p).length from rfl]
    exact List.take_left _ _
  have hdrop : (mkBuf st.masked_lms n).drop (A + hl.toNat) =
      (List.range' (p + hl.toNat) (n - (p + hl.toNat))).flatMap (chunkOf st.masked_lms) := by
    rw [mkBuf_split st.masked_lms (p + hl.toNat) n hple]
    rw [show A + hl.toNat = (mkBuf st.masked_lms (p + hl.toNat)).length from by
      rw [show (mkBuf st.masked_lms (p + hl.toNat)).length =
        bufIdx st.masked_lms (p + hl.toNat) from rfl]
      rw [bufIdx_fresh_run st.masked_lms p hl.toNat hfresh]]
    exact List.drop_left _ _
  rw [htake, hdrop]
  simp [render]

/-- One full hole-placing iteration at a fresh candidate position
preserves the structural buffer invariant. -/
theorem bufInv_step (ctx : HoleCtx) (st : HoleState) (inv : BufInv ctx st)
    (p : Nat) (hp : p < ctx.seq.length)
    (hl : Int) (target : Nat) (hl0 : 0 ≤ hl)
    (hfresh : ∀ i, i < hl.toNat → freshAt st.masked_lms (p + i))
    (hfp : freshAt st.masked_lms p)
    (hple : p + hl.toNat ≤ ctx.seq.length) :
    BufInv ctx (stepState ctx st p ((bufIdx st.masked_lms p : Nat) : Int) hl target) := by
  have hlcast : (hl.toNat : Int) = hl := Int.toNat_of_nonneg hl0
  refine ⟨?_, ?_, ?_, ?_, ?_, ?_, ?_⟩
  · show (addToSuffix st.offset_idxs (p + 1) (1 - hl)).length = ctx.seq.length
    rw [addToSuffix_length]
    exact inv.offlen
  · intro q hq
    show (addToSuffix st.offset_idxs (p + 1) (1 - hl)).get? q =
      some (holeSumBelow (st.masked_lms ++ [⟨(p : Int), target, hl⟩]) q)
    rw [addToSuffix_get?, inv.offsum q hq, holeSumBelow_append]
    rw [show (⟨(p : Int), target, hl⟩ : MaskedLmInstance).pos_index = (p : Int) from rfl]
    rw [show (⟨(p : Int), target, hl⟩ : MaskedLmInstance).hole_length = hl from rfl]
    by_cases hc : p + 1 ≤ q
    · rw [if_pos hc, if_pos (by omega)]
      rfl
    · rw [if_neg hc, if_neg (by omega)]
      simp
  · show stepIds ctx st ((bufIdx st.masked_lms p : Nat) : Int) hl =
      (mkBuf (st.masked_lms ++ [⟨(p : Int), target, hl⟩]) ctx.seq.length).map
        (render ctx.seq ctx.holeToken)
    exact stepIds_eq ctx st inv p hp hl target hl0 hfresh hfp hple
  · intro lm hlm
    rcases List.mem_append.1 hlm with h | h
    · exact inv.lmrange lm h
    · simp only [List.mem_singleton] at h
      subst h
      refine ⟨?_, ?_, ?_, ?_⟩
      · show (0 : Int) ≤ ((p : Nat) : Int)
        omega
      · show ((p : Nat) : Int) < (ctx.seq.length : Int)
        omega
      · show (0 : Int) ≤ hl
        exact hl0
      · show ((p : Nat) : Int) + hl ≤ (ctx.seq.length : Int)
        omega
  · intro q
    show q ∈ visitRange st.visited p hl ↔
      coveredBy (st.masked_lms ++ [⟨(p : Int), target, hl⟩]) q = true
    rw [coveredBy_append]
    have hfoot : inFootprint ⟨(p : Int), target, hl⟩ q = true ↔
        (p ≤ q ∧ q < p + hl.toNat) := by
      simp only [inFootprint, decide_eq_true_eq]
      omega
    have hmem : q ∈ (List.range hl.toNat).map (p + ·) ↔ (p ≤ q ∧ q < p + hl.toNat) := by
      rw [List.mem_map]
      constructor
      · rintro ⟨i, hi, rfl⟩
        rw [List.mem_range] at hi
        omega
      · rintro ⟨h1, h2⟩
        exact ⟨q - p, by rw [List.mem_range]; omega, by omega⟩
    unfold visitRange
    rw [List.mem_append, inv.visited_iff q, Bool.or_eq_true, hfoot, hmem]
  · show (st.masked_lms ++ [(⟨(p : Int), target, hl⟩ : MaskedLmInstance)]).Pairwise _
    rw [List.pairwise_append]
    refine ⟨inv.disj, List.pairwise_singleton _ _, ?_⟩
    intro lm' hlm' lm2 hlm2
    simp only [List.mem_singleton] at hlm2
    subst hlm2
    have hnotpos : ¬ lm'.pos_index = (p : Int) := by
      have hfp1 := hfp.1
      unfold isLmPos at hfp1
      rw [List.any_eq_false] at hfp1
      have h2 := hfp1 lm' hlm'
      simpa using h2
    constructor
    · exact hnotpos
    · have hfree := freeAt_of_not_covered st.masked_lms p hfp.2 lm' hlm'
      rcases hfree with h | h
      · exact Or.inl h
      · right
        show ((p : Nat) : Int) + hl ≤ lm'.pos_index
        by_contra hcon
        push_neg at hcon
        have hplt : (p : Int) < lm'.pos_index := lt_of_le_of_ne h (fun hx => hnotpos hx.symm)
        have hi1 : lm'.pos_index = ((p + (lm'.pos_index - p).toNat : Nat) : Int) := by omega
        have hi2 : (lm'.pos_index - p).toNat < hl.toNat := by omega
        have hfr := (hfresh (lm'.pos_index - p).toNat hi2).1
        unfold isLmPos at hfr
        rw [List.any_eq_false] at hfr
        have h3 := hfr lm' hlm'
        simp only [decide_eq_true_eq] at h3
        exact h3 hi1
  · intro pr hpr
    exact registerSample_nonneg st.sample_counter hl inv.counters hl0 pr hpr

/-- Under the invariant, the buffer slot at a recorded hole's buffer index
holds the hole token. -/
theorem lm_slot_hole (ctx : HoleCtx) (st : HoleState) (inv : BufInv ctx st)
    (q : Nat) (hq : q < ctx.seq.length) (hlm : isLmPos st.masked_lms q = true) :
    st.input_ids.get? (bufIdx st.masked_lms q) = some ctx.holeToken := by
  rw [inv.buf, List.get?_map]
  have hdrop := mkBuf_drop st.masked_lms ctx.seq.length q hq
  have hget : (mkBuf st.masked_lms ctx.seq.length).get? (bufIdx st.masked_lms q) =
      some none := by
    have h0 : ((mkBuf st.masked_lms ctx.seq.length).drop (bufIdx st.masked_lms q)).get? 0 =
        (mkBuf st.masked_lms ctx.seq.length).get? (bufIdx st.masked_lms q) := by
      rw [List.get?_drop, Nat.add_zero]
    rw [← h0, hdrop, chunkOf_isLm _ _ hlm]
    rfl
  rw [hget]
  rfl

/-- The range/disjointness facts of the invariant in the form the counting
lemmas consume. -/
theorem inv_range2 (ctx : HoleCtx) (st : HoleState) (inv : BufInv ctx st) :
    ∀ lm ∈ st.masked_lms, 0 ≤ lm.pos_index ∧ 0 ≤ lm.hole_length :=
  fun lm hlm => ⟨(inv.lmrange lm hlm).1, (inv.lmrange lm hlm).2.2.1⟩

/-- Under the invariant, the in-loop sanity re-check passes on any
sublist of the recorded holes. -/
theorem recheck_sub (ctx : HoleCtx) (st : HoleState) (inv : BufInv ctx st) :
    ∀ sub : List MaskedLmInstance, (∀ lm ∈ sub, lm ∈ st.masked_lms) →
      recheckMaskedLms st.input_ids ctx.holeToken st.offset_idxs sub = .ok () := by
  intro sub
  induction sub with
  | nil => intro _; rfl
  | cons lm rest ih =>
    intro hsub
    have hmem := hsub lm (List.mem_cons_self _ _)
    obtain ⟨hpos0, hposlt, hhl0, hsum⟩ := inv.lmrange lm hmem
    have hcast : lm.pos_index = ((lm.pos_index.toNat : Nat) : Int) := by omega
    set q : Nat := lm.pos_index.toNat with hqdef
    have hqlt : q < ctx.seq.length := by omega
    have hoff : pyGet st.offset_idxs lm.pos_index = .ok (holeSumBelow st.masked_lms q) := by
      rw [hcast]
      exact pyGet_of_get? _ q _ (inv.offsum q hqlt)
    have hfree : freeAt st.masked_lms q :=
      freeAt_lmpos st.masked_lms inv.disj (inv_range2 ctx st inv) hmem
    have hbufeq : (bufIdx st.masked_lms q : Int) = (q : Int) + holeSumBelow st.masked_lms q :=
      bufIdx_eq st.masked_lms inv.disj (inv_range2 ctx st inv) q hfree
    have hislm : isLmPos st.masked_lms q = true := by
      unfold isLmPos
      rw [List.any_eq_true]
      exact ⟨lm, hmem, by simp [← hcast]⟩
    have hslot := lm_slot_hole ctx st inv q hqlt hislm
    unfold recheckMaskedLms
    rw [hoff]
    simp only [exc_ok_bind]
    rw [show lm.pos_index + holeSumBelow st.masked_lms q =
      ((bufIdx st.masked_lms q : Nat) : Int) from by omega]
    rw [pyGet_of_get? _ _ _ hslot]
    simp only [exc_ok_bind, if_pos]
    exact ih (fun x hx => hsub x (List.mem_cons_of_mem _ hx))

/-- Under the invariant, the re-check over all recorded holes passes. -/
theorem recheck_ok (ctx : HoleCtx) (st : HoleState) (inv : BufInv ctx st) :
    recheckMaskedLms st.input_ids ctx.holeToken st.offset_idxs st.masked_lms = .ok () :=
  recheck_sub ctx st inv st.masked_lms (fun _ h => h)

/-- Under the invariant, the post-loop offset adjustment succeeds and maps
every recorded hole's position to its buffer index. -/
theorem updateLmOffsets_sub (ctx : HoleCtx) (st : HoleState) (inv : BufInv ctx st) :
    ∀ sub : List MaskedLmInstance, (∀ lm ∈ sub, lm ∈ st.masked_lms) →
      updateLmOffsets st.input_ids ctx.holeToken st.offset_idxs sub =
        .ok (sub.map (fun lm => ⟨((bufIdx st.masked_lms lm.pos_index.toNat : Nat) : Int),
          lm.token_id, lm.hole_length⟩)) := by
  intro sub
  induction sub with
  | nil => intro _; rfl
  | cons lm rest ih =>
    intro hsub
    have hmem := hsub lm (List.mem_cons_self _ _)
    obtain ⟨hpos0, hposlt, hhl0, hsum⟩ := inv.lmrange lm hmem
    have hcast : lm.pos_index = ((lm.pos_index.toNat : Nat) : Int) := by omega
    set q : Nat := lm.pos_index.toNat with hqdef
    have hqlt : q < ctx.seq.length := by omega
    have hoff : pyGet st.offset_idxs lm.pos_index = .ok (holeSumBelow st.masked_lms q) := by
      rw [hcast]
      exact pyGet_of_get? _ q _ (inv.offsum q hqlt)
    have hfree : freeAt st.masked_lms q :=
      freeAt_lmpos st.masked_lms inv.disj (inv_range2 ctx st inv) hmem
    have hbufeq : (bufIdx st.masked_lms q : Int) = (q : Int) + holeSumBelow st.masked_lms q :=
      bufIdx_eq st.masked_lms inv.disj (inv_range2 ctx st inv) q hfree
    have hislm : isLmPos st.masked_lms q = true := by
      unfold isLmPos
      rw [List.any_eq_true]
      exact ⟨lm, hmem, by simp [← hcast]⟩
    have hslot := lm_slot_hole ctx st inv q hqlt hislm
    unfold updateLmOffsets
    rw [hoff]
    simp only [exc_ok_bind]
    rw [show lm.pos_index + holeSumBelow st.masked_lms q =
      ((bufIdx st.masked_lms q : Nat) : Int) from by omega]
    rw [pyGet_of_get? _ _ _ hslot]
    simp only [exc_ok_bind, if_pos]
    rw [ih (fun x hx => hsub x (List.mem_cons_of_mem _ hx))]
    simp only [exc_ok_bind, List.map_cons]

/-- The common tail of a hole-placing iteration: the re-check passes on
the new state and the loop continues on the rest of the candidates. -/
theorem holeLoop_step_finish (ctx : HoleCtx) (samples : Nat → Nat) (htp : Int)
    (rest : List Nat) (st : HoleState) (inv : BufInv ctx st)
    (pos A : Nat) (hp : pos < ctx.seq.length)
    (hA : (pos : Int) + holeSumBelow st.masked_lms pos = (A : Int))
    (hl : Int) (target : Nat) (hl0 : 0 ≤ hl)
    (hfresh : ∀ i, i < hl.toNat → freshAt st.masked_lms (pos + i))
    (hfp : freshAt st.masked_lms pos)
    (hple : pos + hl.toNat ≤ ctx.seq.length)
    (hnl_rest : ∀ q ∈ rest, isLmPos st.masked_lms q = false)
    (hpos_rest : pos ∉ rest)
    (IH : ∀ st2 : HoleState, BufInv ctx st2 →
       (∀ q ∈ rest, isLmPos st2.masked_lms q = false) →
       ∃ st', holeLoop ctx samples htp rest st2 = .ok st' ∧ BufInv ctx st') :
    ∃ st', (do
      let _ ← recheckMaskedLms (stepIds ctx st ((A : Nat) : Int) hl) ctx.holeToken
        (addToSuffix st.offset_idxs (pos + 1) (1 - hl))
        (st.masked_lms ++ [(⟨(pos : Int), target, hl⟩ : MaskedLmInstance)])
      holeLoop ctx samples htp rest (stepState ctx st pos ((A : Nat) : Int) hl target))
        = .ok st' ∧ BufInv ctx st' := by
  have hAbuf : A = bufIdx st.masked_lms pos := by
    have h1 := bufIdx_eq st.masked_lms inv.disj (inv_range2 ctx st inv) pos
      (freeAt_of_not_covered st.masked_lms pos hfp.2)
    omega
  subst hAbuf
  have inv1 : BufInv ctx
      (stepState ctx st pos ((bufIdx st.masked_lms pos : Nat) : Int) hl target) :=
    bufInv_step ctx st inv pos hp hl target hl0 hfresh hfp hple
  have hrc : recheckMaskedLms
      (stepIds ctx st ((bufIdx st.masked_lms pos : Nat) : Int) hl)
      ctx.holeToken (addToSuffix st.offset_idxs (pos + 1) (1 - hl))
      (st.masked_lms ++ [⟨(pos : Int), target, hl⟩]) = .ok () :=
    recheck_ok ctx _ inv1
  rw [hrc]
  simp only [exc_ok_bind]
  apply IH _ inv1
  intro q hq
  show isLmPos (st.masked_lms ++ [⟨(pos : Int), target, hl⟩]) q = false
  rw [isLmPos_append, hnl_rest q hq]
  simp only [Bool.false_or]
  rw [show decide ((⟨(pos : Int), target, hl⟩ : MaskedLmInstance).pos_index = (q : Int)) =
    false from decide_eq_false (by
      intro hcontra
      have hc2 : ((pos : Nat) : Int) = (q : Int) := hcontra
      have hpq : pos = q := by omega
      subst hpq
      exact hpos_rest hq)]

/-- Progress and invariant preservation of the hole-insertion loop: on
distinct in-range candidates over a sequence free of the hole token, the
loop never raises and the structural invariant holds at exit. -/
theorem holeLoop_progress (ctx : HoleCtx) (samples : Nat → Nat) (htp : Int)
    (hhole : ctx.holeToken ∉ ctx.seq) :
    ∀ (cands : List Nat) (st : HoleState), BufInv ctx st →
      cands.Nodup → (∀ pos ∈ cands, pos < ctx.seq.length) →
      (∀ pos ∈ cands, isLmPos st.masked_lms pos = false) →
      ∃ st', holeLoop ctx samples htp cands st = .ok st' ∧ BufInv ctx st' := by
  intro cands
  induction cands with
  | nil =>
    intro st inv _ _ _
    exact ⟨st, rfl, inv⟩
  | cons pos rest ih =>
    intro st inv hnd hlt hnl
    have hpos : pos < ctx.seq.length := hlt pos (List.mem_cons_self _ _)
    have hnd' : rest.Nodup := hnd.of_cons
    have hlt' : ∀ q ∈ rest, q < ctx.seq.length := fun q hq => hlt q (List.mem_cons_of_mem _ hq)
    have hposnotin : pos ∉ rest := (List.nodup_cons.1 hnd).1
    rw [holeLoop, if_pos hpos]
    have hoff : pyGet st.offset_idxs ((pos : Nat) : Int) =
        .ok (holeSumBelow st.masked_lms pos) :=
      pyGet_of_get? _ pos _ (inv.offsum pos hpos)
    rw [hoff]
    simp only [exc_ok_bind]
    by_cases hbreak : htp ≤ st.total_predictions
    · rw [if_pos hbreak]
      exact ⟨st, rfl, inv⟩
    rw [if_neg hbreak]
    by_cases hvis : pos ∈ st.visited
    · rw [if_pos hvis]
      exact ih st inv hnd' hlt' (fun q hq => hnl q (List.mem_cons_of_mem _ hq))
    rw [if_neg hvis]
    by_cases hcrop : (ctx.seq.length : Int) < (pos : Int) + holeSumBelow st.masked_lms pos
    · rw [if_pos hcrop]
      exact ih st inv hnd' hlt' (fun q hq => hnl q (List.mem_cons_of_mem _ hq))
    rw [if_neg hcrop]
    have hnl0 : isLmPos st.masked_lms pos = false := hnl pos (List.mem_cons_self _ _)
    obtain ⟨A, D, hAeq, hAdef, hD1, hDle, hDfresh, hDend, hADlen, hADfull, hreads, hholeAt⟩ :=
      fresh_analysis ctx st inv hhole pos hpos hnl0 hvis
    rw [hAeq]
    have hfp : freshAt st.masked_lms pos := by
      refine ⟨hnl0, ?_⟩
      cases hc : coveredBy st.masked_lms pos
      · rfl
      · exact absurd ((inv.visited_iff pos).2 hc) hvis
    have hread0 : pyGet st.input_ids ((A : Nat) : Int) = .ok (ctx.seq.getD pos 0) := by
      have h := (hreads 0 (by omega)).1
      simpa using h
    rw [hread0]
    simp only [exc_ok_bind]
    set s : Nat := samples st.rngIdx with hs
    set hl0 : Int := min ((s : Nat) : Int) ((st.input_ids.length : Int) - ((A : Nat) : Int))
      with hhl0
    have hl0nn : 0 ≤ hl0 := by
      rw [hhl0]
      have hc : (A : Int) + (D : Int) ≤ (st.input_ids.length : Int) := by exact_mod_cast hADlen
      omega
    by_cases hsc : hl0.toNat ≤ D
    · have hscan : holeConflictScan st.input_ids ctx.holeToken ((A : Nat) : Int)
          hl0.toNat 0 = .ok none := by
        apply holeConflictScan_no_hit
        intro j hj1 hj2
        exact ⟨ctx.seq.getD (pos + j) 0, (hreads j (by omega)).1, (hreads j (by omega)).2⟩
      rw [hscan]
      simp only [exc_ok_bind]
      rw [holeLengthAfterScan_none]
      by_cases htgt : 0 < hl0
      · rw [if_pos htgt]
        exact holeLoop_step_finish ctx samples htp rest st inv pos A hpos hAeq hl0
          (ctx.seq.getD pos 0) hl0nn
          (fun i hi => hDfresh i (by omega))
          hfp (by omega)
          (fun q hq => hnl q (List.mem_cons_of_mem _ hq)) hposnotin
          (fun st2 inv2 hnl2 => ih st2 inv2 hnd' hlt' hnl2)
      · rw [if_neg htgt]
        simp only [exc_pure_eq_ok, exc_ok_bind]
        exact holeLoop_step_finish ctx samples htp rest st inv pos A hpos hAeq hl0
          ctx.endholeToken hl0nn
          (fun i hi => hDfresh i (by omega))
          hfp (by omega)
          (fun q hq => hnl q (List.mem_cons_of_mem _ hq)) hposnotin
          (fun st2 inv2 hnl2 => ih st2 inv2 hnd' hlt' hnl2)
    · have hpDn : isLmPos st.masked_lms (pos + D) = true := by
        rcases hDend with h | h
        · exfalso
          have hlen := hADfull h
          rw [hhl0] at hsc
          omega
        · exact h
      have hhole_read := hholeAt hpDn
      have hscan : holeConflictScan st.input_ids ctx.holeToken ((A : Nat) : Int)
          hl0.toNat 0 = .ok (some D) := by
        apply holeConflictScan_hit _ _ _ _ _ D (by omega) (by omega)
        · intro j hj1 hj2
          exact ⟨ctx.seq.getD (pos + j) 0, (hreads j (by omega)).1, (hreads j (by omega)).2⟩
        · exact hhole_read
      rw [hscan]
      simp only [exc_ok_bind]
      rw [holeLengthAfterScan_some]
      have hDpos : 0 < ((D : Nat) : Int) := by omega
      rw [if_pos hDpos]
      exact holeLoop_step_finish ctx samples htp rest st inv pos A hpos hAeq ((D : Nat) : Int)
        (ctx.seq.getD pos 0) (by omega)
        (fun i hi => hDfresh i (by simpa using hi))
        hfp (by simpa using hDle)
        (fun q hq => hnl q (List.mem_cons_of_mem _ hq)) hposnotin
        (fun st2 inv2 hnl2 => ih st2 inv2 hnd' hlt' hnl2)

/-- C6: crop-skip guard soundness.  Over a sequence free of the hole token
and distinct in-range candidates (the call site passes a shuffle of
`range(actual_length)`), the hole-insertion loop completes without any
error — in this embedding every buffer read and splice is a fallible
`pyGet`/slice at the offset-adjusted index, so `.ok` means no
out-of-range access occurred — and every recorded hole has a
non-negative clamped length and footprint inside the sequence. -/
theorem crop_guard_soundness (ctx : HoleCtx) (samples : Nat → Nat) (cands : List Nat)
    (hhole : ctx.holeToken ∉ ctx.seq)
    (hnd : cands.Nodup) (hlt : ∀ pos ∈ cands, pos < ctx.seq.length) :
    ∃ st', holeLoop ctx samples (holesToPredictOf ctx) cands (initHoleState ctx) = .ok st' ∧
      ∀ lm ∈ st'.masked_lms, 0 ≤ lm.hole_length ∧ 0 ≤ lm.pos_index ∧
        lm.pos_index + lm.hole_length ≤ (ctx.seq.length : Int) := by
  obtain ⟨st', hrun, inv⟩ := holeLoop_progress ctx samples (holesToPredictOf ctx) hhole cands
    (initHoleState ctx) (bufInv_init ctx) hnd hlt
    (by intro pos _; simp [initHoleState, isLmPos])
  exact ⟨st', hrun, fun lm hlm => ⟨(inv.lmrange lm hlm).2.2.1, (inv.lmrange lm hlm).1,
    (inv.lmrange lm hlm).2.2.2⟩⟩

theorem crop_guard_soundness_witness :
    ∃ st', holeLoop ⟨[5, 6], 50, 0, 51, 1, 2, 1/2⟩ (fun _ => 1)
        (holesToPredictOf ⟨[5, 6], 50, 0, 51, 1, 2, 1/2⟩) [0]
        (initHoleState ⟨[5, 6], 50, 0, 51, 1, 2, 1/2⟩) = .ok st' ∧
      ∀ lm ∈ st'.masked_lms, 0 ≤ lm.hole_length ∧ 0 ≤ lm.pos_index ∧
        lm.pos_index + lm.hole_length ≤
          (((⟨[5, 6], 50, 0, 51, 1, 2, 1/2⟩ : HoleCtx)).seq.length : Int) :=
  crop_guard_soundness ⟨[5, 6], 50, 0, 51, 1, 2, 1/2⟩ (fun _ => 1) [0]
    (by decide) (by decide) (by decide)

/-! ### Counting hole markers in a prefix of the buffer (C2) -/

theorem bufIdx_mono (lms : List MaskedLmInstance) (q : Nat) :
    ∀ k : Nat, bufIdx lms q ≤ bufIdx lms (q + k) := by
  intro k
  induction k with
  | zero => exact le_refl _
  | succ k ih =>
    rw [show q + (k + 1) = (q + k) + 1 from rfl, bufIdx_succ]
    omega

theorem countP_pos_single (lms : List MaskedLmInstance)
    (hne : lms.Pairwise (fun l1 l2 => l1.pos_index ≠ l2.pos_index)) (s : Nat) :
    lms.countP (fun lm => decide (lm.pos_index = ((s : Nat) : Int))) =
      if isLmPos lms s then 1 else 0 := by
  induction lms with
  | nil => simp [isLmPos]
  | cons lm rest ih =>
    obtain ⟨hhead, htail⟩ := List.pairwise_cons.1 hne
    rw [List.countP_cons, ih htail, isLmPos_cons]
    by_cases h : lm.pos_index = (s : Int)
    · have hrest0 : rest.countP (fun lm => decide (lm.pos_index = ((s : Nat) : Int))) = 0 := by
        rw [List.countP_eq_zero]
        intro lm2 hlm2
        simp only [decide_eq_true_eq]
        intro hcontra
        exact hhead lm2 hlm2 (by rw [h, hcontra])
      rw [List.countP_eq_zero] at hrest0
      have hr2 : isLmPos rest s = false := by
        unfold isLmPos
        rw [List.any_eq_false]
        intro lm2 hlm2
        exact hrest0 lm2 hlm2
      simp [h, hr2]
    · simp [h]

/-- The number of hole markers in a `k`-prefix of the ghost-buffer suffix
starting at original position `s`: the recorded holes whose marker falls in
that window. -/
theorem countNone_suffix (lms : List MaskedLmInstance)
    (hdisj : lms.Pairwise (fun l1 l2 => l1.pos_index ≠ l2.pos_index ∧
      (l1.pos_index + l1.hole_length ≤ l2.pos_index ∨
       l2.pos_index + l2.hole_length ≤ l1.pos_index)))
    (hrange : ∀ lm ∈ lms, 0 ≤ lm.pos_index ∧ 0 ≤ lm.hole_length) :
    ∀ (t s k : Nat),
      ((((List.range' s t).flatMap (chunkOf lms)).take k).countP (fun o => o.isNone)) =
        lms.countP (fun lm => decide ((s : Int) ≤ lm.pos_index ∧
          lm.pos_index < ((s + t : Nat) : Int) ∧
          bufIdx lms lm.pos_index.toNat < bufIdx lms s + k)) := by
  intro t
  induction t with
  | zero =>
    intro s k
    rw [show List.range' s 0 = [] from rfl]
    rw [show (([] : List Nat).flatMap (chunkOf lms)) = [] from rfl]
    rw [List.take_nil, List.countP_nil]
    symm
    rw [List.countP_eq_zero]
    intro lm _
    simp only [decide_eq_true_eq]
    intro hcontra
    omega
  | succ t ih =>
    intro s k
    rw [show List.range' s (t + 1) = s :: List.range' (s + 1) t from rfl]
    rw [List.flatMap_cons, List.take_append_eq_append_take, List.countP_append]
    rw [ih (s + 1) (k - (chunkOf lms s).length)]
    have hHT : (((chunkOf lms s).take k).countP (fun o => o.isNone)) =
        if isLmPos lms s ∧ 1 ≤ k then 1 else 0 := by
      rcases k with _ | k
      · simp
      · unfold chunkOf
        by_cases hl : isLmPos lms s <;> by_cases hc : coveredBy lms s <;>
          simp [hl, hc, List.countP_cons] <;>
          (intro a ha
           have h2 := List.take_subset k [some s] ha
           simp only [List.mem_singleton] at h2
           subst h2
           simp)
    have hsucc : bufIdx lms (s + 1) = bufIdx lms s + (chunkOf lms s).length :=
      bufIdx_succ lms s
    have hsplit : ∀ lm ∈ lms,
        (decide ((s : Int) ≤ lm.pos_index ∧ lm.pos_index < ((s + (t + 1) : Nat) : Int) ∧
          bufIdx lms lm.pos_index.toNat < bufIdx lms s + k)) = true ↔
        ((decide (lm.pos_index = ((s : Nat) : Int)) && decide (1 ≤ k)) ||
         decide (((s + 1 : Nat) : Int) ≤ lm.pos_index ∧
          lm.pos_index < (((s + 1) + t : Nat) : Int) ∧
          bufIdx lms lm.pos_index.toNat <
            bufIdx lms (s + 1) + (k - (chunkOf lms s).length))) = true := by
      intro lm hlm
      have h0 := (hrange lm hlm).1
      obtain ⟨q, hq⟩ : ∃ q : Nat, lm.pos_index = (q : Int) := ⟨lm.pos_index.toNat, by omega⟩
      rw [hq]
      rw [show ((q : Int)).toNat = q from by omega]
      simp only [Bool.or_eq_true, Bool.and_eq_true, decide_eq_true_eq]
      by_cases hqs : s + 1 ≤ q
      · have hmono := bufIdx_mono lms (s + 1) (q - (s + 1))
        rw [show (s + 1) + (q - (s + 1)) = q from by omega] at hmono
        omega
      · by_cases hqe : q = s
        · subst hqe
          omega
        · omega
    rw [List.countP_congr hsplit]
    rw [countP_or_disjoint lms _ _ (by
      intro lm hlm
      simp only [Bool.and_eq_true, decide_eq_true_eq]
      intro hcontra
      obtain ⟨⟨h1, _⟩, h2, _⟩ := hcontra
      omega)]
    have hPa : lms.countP
        (fun lm => decide (lm.pos_index = ((s : Nat) : Int)) && decide (1 ≤ k)) =
        if isLmPos lms s ∧ 1 ≤ k then 1 else 0 := by
      by_cases hk : 1 ≤ k
      · rw [show (decide (1 ≤ k)) = true from by simp [hk]]
        simp only [Bool.and_true]
        rw [countP_pos_single lms (hdisj.imp (fun h => h.1)) s]
        simp [hk]
      · rw [show (decide (1 ≤ k)) = false from by simp [hk]]
        simp only [Bool.and_false]
        rw [show (fun _ : MaskedLmInstance => false) = (fun lm =>
          decide False) from by simp]
        rw [List.countP_eq_zero.2 (by intro a _; simp)]
        simp [hk]
    rw [hHT, hPa]

/-- Hole markers in a `k`-prefix of the whole ghost buffer. -/
theorem countNone_mkBuf_take (lms : List MaskedLmInstance) (n : Nat)
    (hdisj : lms.Pairwise (fun l1 l2 => l1.pos_index ≠ l2.pos_index ∧
      (l1.pos_index + l1.hole_length ≤ l2.pos_index ∨
       l2.pos_index + l2.hole_length ≤ l1.pos_index)))
    (hrange : ∀ lm ∈ lms, 0 ≤ lm.pos_index ∧ 0 ≤ lm.hole_length)
    (hlt : ∀ lm ∈ lms, lm.pos_index < (n : Int)) (k : Nat) :
    (((mkBuf lms n).take k).countP (fun o => o.isNone)) =
      lms.countP (fun lm => decide (bufIdx lms lm.pos_index.toNat < k)) := by
  unfold mkBuf
  rw [List.range_eq_range']
  rw [countNone_suffix lms hdisj hrange n 0 k]
  apply List.countP_congr
  intro lm hlm
  have h0 := (hrange lm hlm).1
  have h1 := hlt lm hlm
  simp only [decide_eq_true_eq]
  have hb0 : bufIdx lms 0 = 0 := rfl
  omega

theorem mkBuf_entries (lms : List MaskedLmInstance) (n : Nat) :
    ∀ o ∈ mkBuf lms n, o = none ∨ ∃ q, o = some q ∧ q < n := by
  intro o ho
  unfold mkBuf at ho
  rw [List.mem_flatMap] at ho
  obtain ⟨q, hq, ho2⟩ := ho
  rw [List.mem_range] at hq
  unfold chunkOf at ho2
  rw [List.mem_append] at ho2
  rcases ho2 with h | h
  · by_cases hl : isLmPos lms q
    · rw [if_pos hl] at h
      simp only [List.mem_singleton] at h
      exact Or.inl h
    · rw [if_neg hl] at h
      exact absurd h (List.not_mem_nil o)
  · by_cases hc : coveredBy lms q
    · rw [if_pos hc] at h
      exact absurd h (List.not_mem_nil o)
    · rw [if_neg hc] at h
      simp only [List.mem_singleton] at h
      exact Or.inr ⟨q, h, hq⟩

/-- Rendering turns exactly the hole markers into hole tokens, provided
the sequence itself is free of the hole token. -/
theorem count_hole_render (seq : List Nat) (hole : Nat) (hhole : hole ∉ seq) :
    ∀ l : List (Option Nat),
      (∀ o ∈ l, o = none ∨ ∃ q, o = some q ∧ q < seq.length) →
      ((l.map (render seq hole)).count hole) = l.countP (fun o => o.isNone) := by
  intro l
  induction l with
  | nil => intro _; rfl
  | cons o rest ih =>
    intro hent
    rw [List.map_cons, List.count_cons, List.countP_cons,
      ih (fun x hx => hent x (List.mem_cons_of_mem _ hx))]
    rcases hent o (List.mem_cons_self _ _) with h | ⟨q, rfl, hq⟩
    · subst h
      simp [render]
    · have hmem : seq.getD q 0 ∈ seq := by
        rw [List.getD_eq_getElem seq 0 hq]
        exact List.getElem_mem _
      have hne : ¬ (render seq hole (some q) = hole) := by
        simp only [render]
        intro hcontra
        rw [hcontra] at hmem
        exact hhole hmem
      simp only [Option.isNone_some]
      rw [if_neg (by simpa using hne)]
      simp

/-- The C2 equality at the level of the loop exit state: hole tokens in
the `len(seq)`-prefix of the (re-padded) buffer match the recorded holes
whose adjusted position lands inside the sequence, through the sort, the
position filter and the sentinel padding of the returned lists. -/
theorem positional_full (ctx : HoleCtx) (st : HoleState) (inv : BufInv ctx st)
    (hhole : ctx.holeToken ∉ ctx.seq) (hpadhole : ctx.padToken ≠ ctx.holeToken)
    (L real : List MaskedLmInstance) (pc : Nat)
    (hLdef : L = st.masked_lms.map (fun lm =>
      (⟨((bufIdx st.masked_lms lm.pos_index.toNat : Nat) : Int), lm.token_id,
        lm.hole_length⟩ : MaskedLmInstance)))
    (hrealdef : real = (List.insertionSort (fun a b => a.pos_index ≤ b.pos_index) L).filter
      (fun p => p.pos_index < (ctx.seq.length : Int)))
    (hpcdef : pc = ctx.trainingMaxPredictions - real.length) :
    (((st.input_ids ++ List.replicate (ctx.seq.length - st.input_ids.length)
        ctx.padToken).take ctx.seq.length).count ctx.holeToken) =
      (((real.map (fun lm : MaskedLmInstance => lm.pos_index) ++
          List.replicate pc (0 : Int)).zip
        (real.map (fun _ : MaskedLmInstance => (1 : ℚ)) ++ List.replicate pc (0 : ℚ))).filter
        (fun pw : Int × ℚ =>
          decide (pw.1 < (ctx.seq.length : Int)) && decide (pw.2 = 1))).length := by
  set n := ctx.seq.length with hn
  have hzip : ((real.map (fun lm : MaskedLmInstance => lm.pos_index) ++
        List.replicate pc (0 : Int)).zip
      (real.map (fun _ : MaskedLmInstance => (1 : ℚ)) ++ List.replicate pc (0 : ℚ))) =
      real.map (fun lm : MaskedLmInstance => (lm.pos_index, (1 : ℚ))) ++
        List.replicate pc ((0 : Int), (0 : ℚ)) := by
    rw [List.zip_append (by simp), List.zip_map', List.zip_replicate]
    simp
  rw [hzip, List.filter_append]
  have hfilt1 : (real.map (fun lm : MaskedLmInstance => (lm.pos_index, (1 : ℚ)))).filter
      (fun pw : Int × ℚ => decide (pw.1 < (n : Int)) && decide (pw.2 = 1)) =
      real.map (fun lm : MaskedLmInstance => (lm.pos_index, (1 : ℚ))) := by
    rw [List.filter_eq_self]
    intro pw hpw
    obtain ⟨lm, hlm, rfl⟩ := List.mem_map.1 hpw
    have hlm2 := (List.mem_filter.1 (hrealdef ▸ hlm)).2
    simp only [Bool.and_eq_true, decide_eq_true_eq]
    exact ⟨by simpa using hlm2, by norm_num⟩
  have hfilt2 : (List.replicate pc ((0 : Int), (0 : ℚ))).filter
      (fun pw : Int × ℚ => decide (pw.1 < (n : Int)) && decide (pw.2 = 1)) = [] := by
    rw [List.filter_eq_nil_iff]
    intro pw hpw
    rw [List.eq_of_mem_replicate hpw]
    simp only [Bool.and_eq_true, decide_eq_true_eq]
    intro hcontra
    have := hcontra.2
    norm_num at this
  rw [hfilt1, hfilt2, List.length_append, List.length_map, List.length_nil]
  rw [List.take_append_eq_append_take, List.count_append]
  have hpadcount : ((List.replicate (n - st.input_ids.length) ctx.padToken).take
      (n - st.input_ids.length)).count ctx.holeToken = 0 := by
    rw [List.take_replicate]
    rw [List.count_replicate]
    rw [if_neg (by simpa using hpadhole)]
  rw [hpadcount, Nat.add_zero]
  have hmain : ((st.input_ids.take n).count ctx.holeToken) =
      st.masked_lms.countP
        (fun lm => decide (bufIdx st.masked_lms lm.pos_index.toNat < n)) := by
    rw [inv.buf, ← List.map_take]
    rw [count_hole_render ctx.seq ctx.holeToken hhole _
      (fun o ho => mkBuf_entries st.masked_lms n o (List.take_subset n _ ho))]
    exact countNone_mkBuf_take st.masked_lms n inv.disj (inv_range2 ctx st inv)
      (fun lm hlm => (inv.lmrange lm hlm).2.1) n
  rw [hmain, Nat.add_zero, hrealdef, ← List.countP_eq_length_filter]
  rw [List.Perm.countP_eq _ (List.perm_insertionSort _ L)]
  rw [hLdef, List.countP_map]
  apply List.countP_congr
  intro lm hlm
  simp only [Function.comp, decide_eq_true_eq]
  omega

/-- C2 (amended): positional invariant of the returned MaskedInstance.
For every accepted input whose sequence is free of the hole token (with
`pad ≠ hole`) and distinct in-range candidates, the number of hole tokens
in the returned `input_ids` (the `len(seq)`-prefix of the final buffer)
equals the number of non-sentinel entries — weight `1.0` — of the
returned parallel lists whose position is below the sequence length.  As
stated over *all* accepted inputs the claim fails: a sequence that
already contains the hole token is accepted and breaks the count. -/
theorem positional_invariant (ctx : HoleCtx) (train : Bool) (samples : Nat → Nat)
    (cands : List Nat) (r : MaskSequenceR)
    (hhole : ctx.holeToken ∉ ctx.seq)
    (hpadhole : ctx.padToken ≠ ctx.holeToken)
    (hnd : cands.Nodup) (hlt : ∀ pos ∈ cands, pos < ctx.seq.length)
    (hrun : holeSequenceCore ctx train samples cands = .ok r) :
    r.input_ids.count ctx.holeToken =
      ((r.masked_lm_positions.zip r.masked_lm_weights).filter
        (fun pw : Int × ℚ =>
          decide (pw.1 < (ctx.seq.length : Int)) && decide (pw.2 = 1))).length := by
  obtain ⟨st', hloop, inv⟩ := holeLoop_progress ctx samples (holesToPredictOf ctx) hhole cands
    (initHoleState ctx) (bufInv_init ctx) hnd hlt
    (by intro pos _; simp [initHoleState, isLmPos])
  unfold holeSequenceCore at hrun
  rw [hloop] at hrun
  simp only [exc_ok_bind] at hrun
  unfold holeSequencePost at hrun
  rw [updateLmOffsets_sub ctx st' inv st'.masked_lms (fun _ h => h)] at hrun
  simp only [exc_ok_bind] at hrun
  by_cases hpm : ctx.padToken ∈ st'.input_ids ++
      List.replicate (ctx.seq.length - st'.input_ids.length) ctx.padToken
  · rw [if_pos hpm] at hrun
    cases hlast : pyGet (st'.input_ids ++
        List.replicate (ctx.seq.length - st'.input_ids.length) ctx.padToken)
        ((((st'.input_ids ++ List.replicate (ctx.seq.length - st'.input_ids.length)
          ctx.padToken).findIdx (· = ctx.padToken) : Nat) : Int) - 1) with
    | error e =>
      rw [hlast] at hrun
      simp at hrun
    | ok lastTok =>
      rw [hlast] at hrun
      simp only [exc_ok_bind] at hrun
      by_cases hle : lastTok = ctx.padToken
      · rw [if_pos hle] at hrun
        simp at hrun
      · rw [if_neg hle] at hrun
        simp only [exc_pure_eq_ok, exc_ok_bind, Except.ok.injEq] at hrun
        subst hrun
        exact positional_full ctx st' inv hhole hpadhole _ _ _ rfl rfl rfl
  · rw [if_neg hpm] at hrun
    simp only [exc_pure_eq_ok, exc_ok_bind, Except.ok.injEq] at hrun
    subst hrun
    exact positional_full ctx st' inv hhole hpadhole _ _ _ rfl rfl rfl

/-- An accepted input sequence that already contains the hole token
falsifies the claim as stated: `[7, 5]` with hole token `7` yields
`input_ids = [7, 7]` (two hole tokens) but a single non-sentinel entry. -/
theorem positional_invariant_cex :
    ∃ r, holeSequenceCore ⟨[7, 5], 7, 0, 51, 2, 2, 1/2⟩ false (fun _ => 0) [0, 1] = .ok r ∧
      r.input_ids.count 7 ≠
        ((r.masked_lm_positions.zip r.masked_lm_weights).filter
          (fun pw : Int × ℚ =>
            decide (pw.1 < ((([7, 5] : List Nat).length : Nat) : Int)) &&
              decide (pw.2 = 1))).length := by
  refine ⟨⟨0, [7, 5], [7, 7], [1, 1], [0, 0], [51, 0], [1, 0], [0, -1], 0⟩, ?_, by decide⟩
  have h1 : holesToPredictOf ⟨[7, 5], 7, 0, 51, 2, 2, 1/2⟩ = 1 := by
    unfold holesToPredictOf actualLength
    norm_num [pyRound]
  unfold holeSequenceCore
  rw [h1]
  decide

theorem positional_invariant_witness :
    (⟨0, [5, 6], [50, 6], [1, 1], [0, 0], [5, 0], [1, 0], [1, -1], 0⟩ :
        MaskSequenceR).input_ids.count 50 =
      (((⟨0, [5, 6], [50, 6], [1, 1], [0, 0], [5, 0], [1, 0], [1, -1], 0⟩ :
          MaskSequenceR).masked_lm_positions.zip
        (⟨0, [5, 6], [50, 6], [1, 1], [0, 0], [5, 0], [1, 0], [1, -1], 0⟩ :
          MaskSequenceR).masked_lm_weights).filter
        (fun pw : Int × ℚ =>
          decide (pw.1 < ((([5, 6] : List Nat).length : Nat) : Int)) &&
            decide (pw.2 = 1))).length :=
  positional_invariant ⟨[5, 6], 50, 0, 51, 1, 2, 1/2⟩ false (fun _ => 1) [0]
    ⟨0, [5, 6], [50, 6], [1, 1], [0, 0], [5, 0], [1, 0], [1, -1], 0⟩
    (by decide) (by decide) (by decide) (by decide)
    (by
      have h1 : holesToPredictOf ⟨[5, 6], 50, 0, 51, 1, 2, 1/2⟩ = 1 := by
        unfold holesToPredictOf actualLength
        norm_num [pyRound]
      unfold holeSequenceCore
      rw [h1]
      decide)

/-- C5 (amended): invalid-input rejection.  A non-1-dimensional input is
rejected with the explicit dimension error; a *nonempty* all-pad input
reaches the first-pad sanity assert (whose Python `input_ids[first_pad_index
- 1]` wraps to the last element) and raises.  As stated the claim fails:
the empty sequence has no non-pad token yet is accepted and returns a
MaskedInstance with no masking performed. -/
theorem invalid_input_rejection (opts : HoleOpts) (arr : NpArray) (train : Bool)
    (samples : Nat → Nat) (cands : List Nat) :
    (arr.ndim ≠ 1 →
      holeSequenceNp opts arr train samples cands =
        .error "Input for masking must be single-dimension array.") ∧
    (arr.ndim = 1 → arr.data ≠ [] → (∀ tok ∈ arr.data, tok = opts.padToken) →
      cands.Perm (List.range (actualLength (mkHoleCtx opts arr.data))) →
      holeSequenceNp opts arr train samples cands =
        .error "AssertionError: invalid pad index") := by
  constructor
  · intro hnd1
    unfold holeSequenceNp
    rw [if_neg hnd1]
  · intro hnd1 hne hall hperm
    unfold holeSequenceNp
    rw [if_pos hnd1]
    obtain ⟨t, rest, hseq⟩ : ∃ t rest, arr.data = t :: rest := by
      cases hd : arr.data with
      | nil => exact absurd hd hne
      | cons t rest => exact ⟨t, rest, rfl⟩
    have hpadmem : (mkHoleCtx opts arr.data).padToken ∈ (mkHoleCtx opts arr.data).seq := by
      show opts.padToken ∈ arr.data
      rw [hseq]
      have ht := hall t (by rw [hseq]; exact List.mem_cons_self _ _)
      rw [← ht]
      exact List.mem_cons_self _ _
    have hfpi : (mkHoleCtx opts arr.data).seq.findIdx
        (· = (mkHoleCtx opts arr.data).padToken) = 0 := by
      show arr.data.findIdx (· = opts.padToken) = 0
      rw [hseq, List.findIdx_cons]
      have ht := hall t (by rw [hseq]; exact List.mem_cons_self _ _)
      simp [ht]
    have hal : actualLength (mkHoleCtx opts arr.data) = 0 := by
      unfold actualLength
      rw [if_pos hpadmem]
      exact hfpi
    have hcands : cands = [] := by
      rw [hal] at hperm
      exact hperm.eq_nil
    subst hcands
    unfold holeSequenceCore
    rw [show holeLoop (mkHoleCtx opts arr.data) samples
      (holesToPredictOf (mkHoleCtx opts arr.data)) []
      (initHoleState (mkHoleCtx opts arr.data)) =
      .ok (initHoleState (mkHoleCtx opts arr.data)) from rfl]
    simp only [exc_ok_bind]
    unfold holeSequencePost
    rw [show updateLmOffsets (initHoleState (mkHoleCtx opts arr.data)).input_ids
      (mkHoleCtx opts arr.data).holeToken
      (initHoleState (mkHoleCtx opts arr.data)).offset_idxs
      (initHoleState (mkHoleCtx opts arr.data)).masked_lms = .ok [] from rfl]
    simp only [exc_ok_bind]
    rw [show (initHoleState (mkHoleCtx opts arr.data)).input_ids =
      (mkHoleCtx opts arr.data).seq from rfl]
    rw [show (mkHoleCtx opts arr.data).seq.length -
      (mkHoleCtx opts arr.data).seq.length = 0 from by omega]
    rw [List.replicate_zero, List.append_nil]
    rw [if_pos hpadmem]
    rw [hfpi]
    have hlen1 : 1 ≤ (mkHoleCtx opts arr.data).seq.length := by
      show 1 ≤ arr.data.length
      rw [hseq]
      simp
    have hlast : pyGet (mkHoleCtx opts arr.data).seq (((0 : Nat) : Int) - 1) =
        .ok (mkHoleCtx opts arr.data).padToken := by
      unfold pyGet
      rw [if_neg (by omega)]
      rw [if_pos (by
        show -((mkHoleCtx opts arr.data).seq.length : Int) ≤ ((0 : Nat) : Int) - 1
        omega)]
      have hidx : ((((mkHoleCtx opts arr.data).seq.length : Int)) +
          (((0 : Nat) : Int) - 1)).toNat = (mkHoleCtx opts arr.data).seq.length - 1 := by
        omega
      rw [hidx]
      have hlt : (mkHoleCtx opts arr.data).seq.length - 1 <
          (mkHoleCtx opts arr.data).seq.length := by omega
      rw [List.get?_eq_get hlt]
      have hmem := List.get_mem (mkHoleCtx opts arr.data).seq
        ((mkHoleCtx opts arr.data).seq.length - 1) hlt
      have := hall _ hmem
      rw [this]
      rfl
    rw [hlast]
    simp [exc_err_bind]

/-- The empty sequence contains no non-pad token yet is accepted: the
masking call returns a MaskedInstance (with only sentinel entries) instead
of an invalid-input error. -/
theorem invalid_input_rejection_cex :
    holeSequenceNp ⟨50, 0, 51, 1, 1, 1/2⟩ ⟨1, []⟩ false (fun _ => 0) [] =
      .ok ⟨0, [], [], [], [0], [0], [0], [-1], 0⟩ := by
  decide

theorem invalid_input_rejection_witness :
    (holeSequenceNp ⟨50, 0, 51, 1, 2, 1/2⟩ ⟨2, [5]⟩ false (fun _ => 0) [] =
        .error "Input for masking must be single-dimension array.") ∧
    (holeSequenceNp ⟨50, 0, 51, 1, 2, 1/2⟩ ⟨1, [0]⟩ false (fun _ => 0) [] =
        .error "AssertionError: invalid pad index") :=
  ⟨(invalid_input_rejection ⟨50, 0, 51, 1, 2, 1/2⟩ ⟨2, [5]⟩ false (fun _ => 0) []).1
      (by decide),
   (invalid_input_rejection ⟨50, 0, 51, 1, 2, 1/2⟩ ⟨1, [0]⟩ false (fun _ => 0) []).2
      (by decide) (by decide) (by decide) (by decide)⟩

/-! ### C7: determinism of the masking call

In the source, `_holeSequence` draws from two distinct random sources:
`self.rngen.shuffle(candidate_indexes)` uses the per-instance seeded
`random.Random`, while `distribution.sample()` is
`np.random.randint(0, sample_length + 1)` — the process-global numpy
state, which is not derived from the per-call seed.  Modelled from the
spec (the Python RNG internals are not part of this repository): the
seed determines the shuffled candidate order via an arbitrary function
of the seed, and the numpy draws enter as a separate stream argument. -/

/-- Modelled from the spec: one invocation of the masking operation,
with `shuffleOf seed` the seed-determined candidate order and `npStream`
the process-global numpy draw sequence consumed by
`distribution.sample()`. -/
def maskSequenceCall (opts : HoleOpts) (data : List Nat) (train : Bool)
    (shuffleOf : Nat → List Nat) (seed : Nat) (npStream : Nat → Nat) :
    Except String MaskSequenceR :=
  holeSequenceCore (mkHoleCtx opts data) train npStream (shuffleOf seed)

/-- C7 (amended): the masking call is a function of the seed *and* the
global numpy stream: two invocations with the same seed, sequence and
configuration, and pointwise-equal numpy streams, return identical
results.  The claim as stated — the seed alone suffices — fails, because
`distribution.sample()` reads the global numpy state. -/
theorem masking_determinism (opts : HoleOpts) (data : List Nat) (train : Bool)
    (shuffleOf : Nat → List Nat) (seed1 seed2 : Nat) (np1 np2 : Nat → Nat)
    (hseed : seed1 = seed2) (hnp : ∀ i, np1 i = np2 i) :
    maskSequenceCall opts data train shuffleOf seed1 np1 =
      maskSequenceCall opts data train shuffleOf seed2 np2 := by
  have hfun : np1 = np2 := funext hnp
  rw [maskSequenceCall, maskSequenceCall, hseed, hfun]

/-- Two calls with the same seed, sequence and configuration but
different global numpy states produce different MaskedInstances: the
per-call seed does not determine the output. -/
theorem masking_determinism_cex :
    maskSequenceCall ⟨50, 0, 51, 2, 2, 1/2⟩ [5, 6] false (fun _ => [0]) 0 (fun _ => 0) ≠
      maskSequenceCall ⟨50, 0, 51, 2, 2, 1/2⟩ [5, 6] false (fun _ => [0]) 0 (fun _ => 1) := by
  have h1 : holesToPredictOf (mkHoleCtx ⟨50, 0, 51, 2, 2, 1/2⟩ [5, 6]) = 1 := by
    show holesToPredictOf ⟨[5, 6], 50, 0, 51, 2, 2, 1/2⟩ = 1
    unfold holesToPredictOf actualLength
    norm_num [pyRound]
  unfold maskSequenceCall holeSequenceCore
  rw [h1]
  decide

theorem masking_determinism_witness :
    maskSequenceCall ⟨50, 0, 51, 2, 2, 1/2⟩ [5, 6] false (fun _ => [0]) 3 (fun _ => 1) =
      maskSequenceCall ⟨50, 0, 51, 2, 2, 1/2⟩ [5, 6] false (fun _ => [0]) 3 (fun _ => 1) :=
  masking_determinism ⟨50, 0, 51, 2, 2, 1/2⟩ [5, 6] false (fun _ => [0]) 3 3
    (fun _ => 1) (fun _ => 1) rfl (fun _ => rfl)

end BenchPress

